import Mathlib

/-!
# Lock-free ring buffer of `phpfpm/ringbuffer.go`

A shallow embedding of `roundUp`, `NewRingBuffer`, `RingBuffer.Put`,
`RingBuffer.Get` and `RingBuffer.Len`, executed sequentially: an atomic load
reads the field, a compare-and-swap compares the field with the expected
value and stores the new one on equality, `runtime.Gosched()` does nothing.

`uint32` values are natural numbers below `4294967296 = 2^32`; every
arithmetic operation that can leave that range is reduced modulo `2^32`.
A `*Process` is an `Option α` (`none` is the nil pointer).  A Go run-time
panic (slice index out of range) is the outer `none` of the result of
`Put` and `Get`.

For the claims about concurrent calls the same two functions are also given
as a machine of atomic steps (`Pc`, `Thread`, `step`): one step is the code up
to and including the next access to the shared buffer.  A call that runs alone
on this machine produces what the sequential `Put` or `Get` produces
(`put_solo`, `get_solo`); several calls are interleaved by a schedule (`exec`),
and a call facing arbitrary interference sees an arbitrary buffer before each
of its steps (`runEnv`).
-/

namespace Phpfpm

variable {α : Type}

/-- The `RingBuffer` struct: the fields of the Go type, in the same order. -/
structure RingBuffer (α : Type) where
  capacity : Nat
  mask : Nat
  len : Nat
  container : List (Option α)
  status : List Nat
  reader : Nat
  writer : Nat
deriving DecidableEq, Repr

/-- Go `roundUp(v uint32) uint32`: decrement, smear the highest set bit to
the right, increment; the decrement and the increment wrap at `2^32`. -/
def roundUp (v : Nat) : Nat :=
  let v := (v + 4294967295) % 4294967296
  let v := v ||| (v >>> 1)
  let v := v ||| (v >>> 2)
  let v := v ||| (v >>> 4)
  let v := v ||| (v >>> 8)
  let v := v ||| (v >>> 16)
  (v + 1) % 4294967296

/-- Go `NewRingBuffer(capacity uint32) *RingBuffer`: there is no failure
path; both slices are made with `capacity` zero-valued entries. -/
def NewRingBuffer {α : Type} (capacity : Nat) : RingBuffer α :=
  let capacity := roundUp capacity
  { capacity := capacity
    mask := (capacity + 4294967295) % 4294967296
    len := 0
    container := List.replicate capacity none
    status := List.replicate capacity 0
    reader := 0
    writer := 0 }

/-- Go `atomic.CompareAndSwapUint32(addr, old, new)` on a cell holding
`cell`: the success flag and the cell afterwards. -/
def compareAndSwap (cell old new : Nat) : Bool × Nat :=
  if cell = old then (true, new) else (false, cell)

/-- Compare-and-swap on the element `i` of a status slice (the element is
known to exist where the code calls it). -/
def casStatus (status : List Nat) (i old new : Nat) : List Nat :=
  match status[i]? with
  | some s => status.set i (compareAndSwap s old new).2
  | none => status

/-- The inner loop of `Put` (`for i < 10 { ... }` after `i = 0`), with the
number of polls that remain.  `current` is already masked. -/
def putWait {α : Type} (v : Option α) (current : Nat) :
    Nat → RingBuffer α → Option (Bool × RingBuffer α)
  | 0, r => some (false, r)
  | n + 1, r =>
    match r.status[current]? with
    | none => none
    | some status =>
      if status = 0 then
        if current < r.container.length then
          some (true, { r with container := r.container.set current v
                               status := casStatus r.status current 0 1 })
        else none
      else putWait v current n r

/-- The outer loop of `Put` (`for i < 10 && !swapped`), with the number of
iterations that remain (`10 - i`). -/
def putLoop {α : Type} (v : Option α) :
    Nat → RingBuffer α → Option (Bool × RingBuffer α)
  | 0, r => some (false, r)
  | n + 1, r =>
    let pos := r.reader
    let current := r.writer
    if current > (pos + 4294967295 + r.capacity) % 4294967296 then
      putLoop v n r
    else
      let sw := compareAndSwap r.writer current ((current + 1) % 4294967296)
      let r1 := { r with writer := sw.2 }
      if sw.1 then
        putWait v (current &&& r.mask) 10 r1
      else putLoop v n r1

/-- Go `(*RingBuffer).Put(v *Process) bool`. -/
def Put {α : Type} (v : Option α) (r : RingBuffer α) : Option (Bool × RingBuffer α) :=
  putLoop v 10 r

/-- The inner loop of `Get`, with the number of polls that remain. -/
def getWait {α : Type} (current : Nat) :
    Nat → RingBuffer α → Option (Option α × RingBuffer α)
  | 0, r => some (none, r)
  | n + 1, r =>
    match r.status[current]? with
    | none => none
    | some status =>
      if status = 1 then
        match r.container[current]? with
        | none => none
        | some val => some (val, { r with status := casStatus r.status current 1 0 })
      else getWait current n r

/-- The outer loop of `Get`, with the number of iterations that remain. -/
def getLoop {α : Type} : Nat → RingBuffer α → Option (Option α × RingBuffer α)
  | 0, r => some (none, r)
  | n + 1, r =>
    let pos := r.writer
    let current := r.reader
    if pos = current then some (none, r)
    else
      let sw := compareAndSwap r.reader current ((current + 1) % 4294967296)
      let r1 := { r with reader := sw.2 }
      if sw.1 then
        getWait (current &&& r.mask) 10 r1
      else getLoop n r1

/-- Go `(*RingBuffer).Get() *Process`. -/
def Get {α : Type} (r : RingBuffer α) : Option (Option α × RingBuffer α) :=
  getLoop 10 r

/-- Go `(*RingBuffer).Len() uint32`: `pos - current` on `uint32`. -/
def Len {α : Type} (r : RingBuffer α) : Nat :=
  (r.writer + 4294967296 - r.reader) % 4294967296

/-- The five smearing steps of `roundUp`, between its decrement and its
increment. -/
def smear (v : Nat) : Nat :=
  let v := v ||| (v >>> 1)
  let v := v ||| (v >>> 2)
  let v := v ||| (v >>> 4)
  let v := v ||| (v >>> 8)
  v ||| (v >>> 16)

/-- The bits `i` of `m` with `i < k ≤ i + j` are set and `m < 2^k`: the top
`j` bits below position `k` are ones. -/
def TopOnes (m k j : Nat) : Prop :=
  m < 2 ^ k ∧ ∀ i, i < k → k ≤ i + j → m.testBit i = true

/-- The fullness test of `Put`, on the two cursors and the capacity. -/
def putFull (r : RingBuffer α) : Prop :=
  r.writer > (r.reader + 4294967295 + r.capacity) % 4294967296

instance (r : RingBuffer α) : Decidable (putFull r) := by unfold putFull; infer_instance

/-- Sequential `Put` in closed form: what the two loops compute. -/
def putSeq (v : Option α) (r : RingBuffer α) : Option (Bool × RingBuffer α) :=
  if putFull r then some (false, r)
  else
    match r.status[r.writer &&& r.mask]? with
    | none => none
    | some s =>
      if s = 0 then
        if r.writer &&& r.mask < r.container.length then
          some (true, { r with writer := (r.writer + 1) % 4294967296
                               container := r.container.set (r.writer &&& r.mask) v
                               status := r.status.set (r.writer &&& r.mask) 1 })
        else none
      else some (false, { r with writer := (r.writer + 1) % 4294967296 })

/-- Sequential `Get` in closed form. -/
def getSeq (r : RingBuffer α) : Option (Option α × RingBuffer α) :=
  if r.writer = r.reader then some (none, r)
  else
    match r.status[r.reader &&& r.mask]? with
    | none => none
    | some s =>
      if s = 1 then
        match r.container[r.reader &&& r.mask]? with
        | none => none
        | some val =>
          some (val, { r with reader := (r.reader + 1) % 4294967296
                              status := r.status.set (r.reader &&& r.mask) 0 })
      else some (none, { r with reader := (r.reader + 1) % 4294967296 })

/-- A buffer of capacity `2` one step before the writer wraps: one item
stored, `reader = 2^32 - 2`, `writer = 2^32 - 1`. -/
def nearWrap : RingBuffer Nat :=
  { capacity := 2, mask := 1, len := 0, container := [some 5, none], status := [1, 0],
    reader := 4294967294, writer := 4294967295 }

/-- The state `nearWrap` after a successful `Put (some 7)`. -/
def nearWrapPut : RingBuffer Nat :=
  { capacity := 2, mask := 1, len := 0, container := [some 5, some 7], status := [1, 1],
    reader := 4294967294, writer := 0 }

/-- The buffer `r` holds the queue `q` (oldest first) and has not wrapped:
the capacity is a power of two with matching mask and slices, the cursors
delimit `q`, the slots from the reader on hold `q` with state FILLED (1), the
remaining slots have state EMPTY (0), and `writer + capacity ≤ 2^32`. -/
structure Holds (r : RingBuffer α) (q : List (Option α)) : Prop where
  pow : ∃ k, r.capacity = 2 ^ k
  mask_eq : r.mask = r.capacity - 1
  clen : r.container.length = r.capacity
  slen : r.status.length = r.capacity
  wr : r.writer = r.reader + q.length
  le_cap : q.length ≤ r.capacity
  bound : r.writer + r.capacity ≤ 4294967296
  filled : ∀ j, j < q.length →
    r.status[(r.reader + j) % r.capacity]? = some 1 ∧
    r.container[(r.reader + j) % r.capacity]? = q[j]?
  empty : ∀ j, q.length ≤ j → j < r.capacity →
    r.status[(r.reader + j) % r.capacity]? = some 0

/-- A call on the buffer. -/
inductive Call (α : Type) where
  | put (v : Option α)
  | get
deriving DecidableEq, Repr

/-- What a call returned: the boolean of `Put` or the reference of `Get`. -/
inductive Ret (α : Type) where
  | put (ok : Bool)
  | get (v : Option α)
deriving DecidableEq, Repr

/-- One call, run sequentially. -/
def call : Call α → RingBuffer α → Option (Ret α × RingBuffer α)
  | Call.put v, r => (Put v r).map fun p => (Ret.put p.1, p.2)
  | Call.get, r => (Get r).map fun p => (Ret.get p.1, p.2)

/-- A sequence of calls run one after the other; every result is recorded
together with `Len()` read right after the call. -/
def run : List (Call α) → RingBuffer α → Option (List (Ret α × Nat) × RingBuffer α)
  | [], r => some ([], r)
  | c :: cs, r =>
    match call c r with
    | none => none
    | some (x, r1) =>
      match run cs r1 with
      | none => none
      | some (xs, r2) => some ((x, Len r1) :: xs, r2)

/-- The record expected of putting `xs` in order into a buffer that holds
`len` items and has room: every `Put` returns true and `Len()` counts up. -/
def putTrace (len : Nat) : List (Option α) → List (Ret α × Nat)
  | [] => []
  | _ :: xs => (Ret.put true, len + 1) :: putTrace (len + 1) xs

/-- The record expected of as many `Get`s as the buffer holds items `xs`:
the items in insertion order, `Len()` counting down. -/
def getTrace : List (Option α) → List (Ret α × Nat)
  | [] => []
  | x :: xs => (Ret.get x, xs.length) :: getTrace xs

/-- The calls `Put v; Get`, `n` times over. -/
def cycles (v : Option α) : Nat → List (Call α)
  | 0 => []
  | n + 1 => Call.put v :: Call.get :: cycles v n

/-- A buffer of capacity `1` with both cursors at `n`, its one slot EMPTY
and still storing the reference `c`. -/
def oneSlot (n : Nat) (c : Option α) : RingBuffer α :=
  { capacity := 1, mask := 0, len := 0, container := [c], status := [0],
    reader := n, writer := n }

/-- A buffer of capacity `1` whose one slot is FILLED with `v`. -/
def oneSlotFilled (rd wr : Nat) (v : Option α) : RingBuffer α :=
  { capacity := 1, mask := 0, len := 0, container := [v], status := [1],
    reader := rd, writer := wr }

/-- A buffer of capacity `2`, empty, with both cursors at `2^32 - 1`. -/
def emptyAtWrap : RingBuffer Nat :=
  { capacity := 2, mask := 1, len := 0, container := [none, none], status := [0, 0],
    reader := 4294967295, writer := 4294967295 }

/-- A buffer of capacity `2` whose slot under the writer is still FILLED
although the cursors say it is empty (an earlier `Get` gave up on it). -/
def staleSlot : RingBuffer Nat :=
  { capacity := 2, mask := 1, len := 0, container := [some 5, none], status := [1, 0],
    reader := 4, writer := 4 }

/-- A buffer of capacity `2` whose cursors say one item is stored while the
slot under the reader is EMPTY (an earlier `Put` gave up on it). -/
def missingSlot : RingBuffer Nat :=
  { capacity := 2, mask := 1, len := 0, container := [none, none], status := [0, 0],
    reader := 4294967295, writer := 0 }

/-- The shape `NewRingBuffer` gives a buffer for `1 ≤ C ≤ 2^31`: a power-of-two
capacity, the matching mask, and two slices of that length. -/
def Shaped (r : RingBuffer α) : Prop :=
  (∃ k, r.capacity = 2 ^ k) ∧ r.mask = r.capacity - 1 ∧
  r.container.length = r.capacity ∧ r.status.length = r.capacity

/-- A call on the buffer, `Len()` included. -/
inductive Op (α : Type) where
  | put (v : Option α)
  | get
  | len
deriving DecidableEq, Repr

/-- The value a call returned. -/
inductive Out (α : Type) where
  | put (ok : Bool)
  | get (v : Option α)
  | len (n : Nat)
deriving DecidableEq, Repr

/-- One of `Put`, `Get`, `Len`, run sequentially on the buffer. -/
def perform : Op α → RingBuffer α → Option (Out α × RingBuffer α)
  | Op.put v, r => (Put v r).map fun p => (Out.put p.1, p.2)
  | Op.get, r => (Get r).map fun p => (Out.get p.1, p.2)
  | Op.len, r => some (Out.len (Len r), r)

/-- A sequence of calls run one after the other on the buffer. -/
def runOps : List (Op α) → RingBuffer α → Option (List (Out α) × RingBuffer α)
  | [], r => some ([], r)
  | c :: cs, r =>
    match perform c r with
    | none => none
    | some (x, r1) =>
      match runOps cs r1 with
      | none => none
      | some (xs, r2) => some (x :: xs, r2)

/-- The ideal bounded FIFO queue of the specification, oldest item first:
`Put` appends and returns true iff fewer than `cap` items are held, `Get`
removes and returns the oldest item or returns nil on the empty queue, `Len`
is the number of items. -/
def queueStep (cap : Nat) : Op α → List (Option α) → Out α × List (Option α)
  | Op.put v, q => if q.length < cap then (Out.put true, q ++ [v]) else (Out.put false, q)
  | Op.get, [] => (Out.get none, [])
  | Op.get, x :: q => (Out.get x, q)
  | Op.len, q => (Out.len q.length, q)

/-- The ideal queue run on a sequence of calls. -/
def queueRun (cap : Nat) : List (Op α) → List (Option α) → List (Out α) × List (Option α)
  | [], q => ([], q)
  | c :: cs, q =>
    ((queueStep cap c q).1 :: (queueRun cap cs (queueStep cap c q).2).1,
      (queueRun cap cs (queueStep cap c q).2).2)

/-- The number of `Put` calls in a sequence of calls. -/
def countPuts : List (Op α) → Nat
  | [] => 0
  | Op.put _ :: cs => countPuts cs + 1
  | _ :: cs => countPuts cs

/-- Where a call of `Put` or `Get` stands between two accesses to the shared
buffer.  Every constructor is the point just before the next access, with the
local variables of the Go function that are live there (`i`, `pos`, `current`,
`val`); `current` in the inner loop is already masked. -/
inductive Pc (α : Type) where
  | putHead (i : Nat)
  | putPos (i pos : Nat)
  | putCas (i current : Nat)
  | putPoll (current i : Nat)
  | putStore (current : Nat)
  | putFlag (current : Nat)
  | putDone (ok : Bool)
  | getHead (i : Nat)
  | getPos (i pos : Nat)
  | getCas (i current : Nat)
  | getPoll (current i : Nat)
  | getRead (current : Nat)
  | getClear (current : Nat) (val : Option α)
  | getDone (val : Option α)
  | panicked
deriving DecidableEq, Repr

/-- A call in progress: the argument `v` of `Put` (unused by `Get`), the
program point, and four counters that only record what has happened: outer
loop iterations begun, polls of the slot state, and calls of
`runtime.Gosched()` in the outer and in the inner loop. -/
structure Thread (α : Type) where
  arg : Option α
  pc : Pc α
  outer : Nat
  polls : Nat
  outerYields : Nat
  innerYields : Nat
deriving DecidableEq, Repr

/-- A call of `Put v` about to start. -/
def Thread.put (v : Option α) : Thread α :=
  { arg := v, pc := Pc.putHead 0, outer := 0, polls := 0, outerYields := 0, innerYields := 0 }

/-- A call of `Get` about to start. -/
def Thread.get : Thread α :=
  { arg := none, pc := Pc.getHead 0, outer := 0, polls := 0, outerYields := 0,
    innerYields := 0 }

/-- One atomic step of a call on the shared buffer `m`: the code up to and
including its next access to the buffer (an atomic load, a compare-and-swap,
or the plain read or write of a `container` entry), and the local tests that
follow it. -/
def step (m : RingBuffer α) (t : Thread α) : RingBuffer α × Thread α :=
  match t.pc with
  | Pc.putHead i =>
    if i < 10 then (m, { t with pc := Pc.putPos i m.reader, outer := t.outer + 1 })
    else (m, { t with pc := Pc.putDone false })
  | Pc.putPos i pos =>
    if m.writer > (pos + 4294967295 + m.capacity) % 4294967296 then
      (m, { t with pc := Pc.putHead (i + 1), outerYields := t.outerYields + 1 })
    else (m, { t with pc := Pc.putCas i m.writer })
  | Pc.putCas i current =>
    let sw := compareAndSwap m.writer current ((current + 1) % 4294967296)
    if sw.1 then ({ m with writer := sw.2 }, { t with pc := Pc.putPoll (current &&& m.mask) 0 })
    else ({ m with writer := sw.2 },
      { t with pc := Pc.putHead (i + 1), outerYields := t.outerYields + 1 })
  | Pc.putPoll current i =>
    if i < 10 then
      match m.status[current]? with
      | none => (m, { t with pc := Pc.panicked })
      | some status =>
        if status = 0 then (m, { t with pc := Pc.putStore current, polls := t.polls + 1 })
        else (m, { t with pc := Pc.putPoll current (i + 1), polls := t.polls + 1
                          innerYields := t.innerYields + 1 })
    else (m, { t with pc := Pc.putDone false })
  | Pc.putStore current =>
    if current < m.container.length then
      ({ m with container := m.container.set current t.arg }, { t with pc := Pc.putFlag current })
    else (m, { t with pc := Pc.panicked })
  | Pc.putFlag current =>
    ({ m with status := casStatus m.status current 0 1 }, { t with pc := Pc.putDone true })
  | Pc.putDone _ => (m, t)
  | Pc.getHead i =>
    if i < 10 then (m, { t with pc := Pc.getPos i m.writer, outer := t.outer + 1 })
    else (m, { t with pc := Pc.getDone none })
  | Pc.getPos i pos =>
    if pos = m.reader then (m, { t with pc := Pc.getDone none })
    else (m, { t with pc := Pc.getCas i m.reader })
  | Pc.getCas i current =>
    let sw := compareAndSwap m.reader current ((current + 1) % 4294967296)
    if sw.1 then ({ m with reader := sw.2 }, { t with pc := Pc.getPoll (current &&& m.mask) 0 })
    else ({ m with reader := sw.2 },
      { t with pc := Pc.getHead (i + 1), outerYields := t.outerYields + 1 })
  | Pc.getPoll current i =>
    if i < 10 then
      match m.status[current]? with
      | none => (m, { t with pc := Pc.panicked })
      | some status =>
        if status = 1 then (m, { t with pc := Pc.getRead current, polls := t.polls + 1 })
        else (m, { t with pc := Pc.getPoll current (i + 1), polls := t.polls + 1
                          innerYields := t.innerYields + 1 })
    else (m, { t with pc := Pc.getDone none })
  | Pc.getRead current =>
    match m.container[current]? with
    | none => (m, { t with pc := Pc.panicked })
    | some val => (m, { t with pc := Pc.getClear current val })
  | Pc.getClear current val =>
    ({ m with status := casStatus m.status current 1 0 }, { t with pc := Pc.getDone val })
  | Pc.getDone _ => (m, t)
  | Pc.panicked => (m, t)

/-- The shared buffer and the calls in progress on it. -/
structure Config (α : Type) where
  mem : RingBuffer α
  threads : List (Thread α)
deriving DecidableEq, Repr

/-- The call number `k` takes one atomic step. -/
def Config.stepAt (c : Config α) (k : Nat) : Config α :=
  match c.threads[k]? with
  | none => c
  | some t => { mem := (step c.mem t).1, threads := c.threads.set k (step c.mem t).2 }

/-- An interleaving: the calls named by the schedule step one after the
other. -/
def exec (schedule : List Nat) (c : Config α) : Config α :=
  schedule.foldl Config.stepAt c

/-- The program points reached by the calls of a configuration. -/
def Config.pcs (c : Config α) : List (Pc α) :=
  c.threads.map Thread.pc

/-- One call of `Put (some 1)`, one of `Get`, one of `Put (some 2)` and a
second `Get`, all about to start on a fresh buffer of capacity `1`. -/
def raceStart : Config Nat :=
  { mem := NewRingBuffer 1
    threads := [Thread.put (some 1), Thread.get, Thread.put (some 2), Thread.get] }

/-- An interleaving of `raceStart`: the first `Put` runs to its end; the first
`Get` runs up to its read of the slot; the second `Put` claims the next cursor
value and polls the slot once; the second `Get` runs to its end; the first
`Get` finishes; the second `Put` finishes. -/
def raceSchedule : List Nat :=
  [0, 0, 0, 0, 0, 0,  1, 1, 1, 1, 1,  2, 2, 2, 2,  3, 3, 3, 3, 3, 3,  1,  2, 2, 2]

/-- An environment in which the one slot of a capacity-`1` buffer is FILLED
at every step and one item is waiting. -/
def filledEnv : Nat → RingBuffer Nat :=
  fun _ => oneSlotFilled 0 1 (some 3)

/-- The call has returned or panicked. -/
def Thread.finished (t : Thread α) : Bool :=
  match t.pc with
  | Pc.putDone _ => true
  | Pc.getDone _ => true
  | Pc.panicked => true
  | _ => false

/-- A call running against an arbitrary environment: before its `k`-th atomic
step the shared buffer is `env k`, whatever the call itself wrote before, so
every load may return any value and every compare-and-swap may succeed or
fail. -/
def runEnv (env : Nat → RingBuffer α) : Nat → Thread α → Thread α
  | 0, t => t
  | n + 1, t => (step (env n) (runEnv env n t)).2

/-- An upper bound on the atomic steps a call can still take. -/
def Pc.fuel : Pc α → Nat
  | Pc.putHead i => 3 * (10 - i) + 13
  | Pc.putPos i _ => 3 * (10 - i) + 12
  | Pc.putCas i _ => 3 * (10 - i) + 11
  | Pc.putPoll _ i => (10 - i) + 3
  | Pc.putStore _ => 2
  | Pc.putFlag _ => 1
  | Pc.putDone _ => 0
  | Pc.getHead i => 3 * (10 - i) + 13
  | Pc.getPos i _ => 3 * (10 - i) + 12
  | Pc.getCas i _ => 3 * (10 - i) + 11
  | Pc.getPoll _ i => (10 - i) + 3
  | Pc.getRead _ => 2
  | Pc.getClear _ _ => 1
  | Pc.getDone _ => 0
  | Pc.panicked => 0

/-- How the counters of a call relate to its program point. -/
def Thread.Ok (t : Thread α) : Prop :=
  match t.pc with
  | Pc.putHead i | Pc.getHead i =>
    i ≤ 10 ∧ t.outer = i ∧ t.outerYields = i ∧ t.polls = 0 ∧ t.innerYields = 0
  | Pc.putPos i _ | Pc.putCas i _ | Pc.getPos i _ | Pc.getCas i _ =>
    i < 10 ∧ t.outer = i + 1 ∧ t.outerYields = i ∧ t.polls = 0 ∧ t.innerYields = 0
  | Pc.putPoll _ i | Pc.getPoll _ i =>
    i ≤ 10 ∧ t.outer ≤ 10 ∧ t.outerYields < 10 ∧ t.polls = i ∧ t.innerYields = i
  | Pc.putStore _ | Pc.putFlag _ | Pc.getRead _ | Pc.getClear _ _ =>
    t.outer ≤ 10 ∧ t.outerYields < 10 ∧ t.polls ≤ 10 ∧ t.innerYields < 10
  | Pc.putDone ok =>
    t.outer ≤ 10 ∧ t.polls ≤ 10 ∧ t.outerYields + t.innerYields ≤ 19 ∧
      (t.outerYields = 10 ∨ t.innerYields = 10 → ok = false)
  | Pc.getDone val =>
    t.outer ≤ 10 ∧ t.polls ≤ 10 ∧ t.outerYields + t.innerYields ≤ 19 ∧
      (t.outerYields = 10 ∨ t.innerYields = 10 → val = none)
  | Pc.panicked => t.outer ≤ 10 ∧ t.polls ≤ 10 ∧ t.outerYields + t.innerYields ≤ 19

/-- A call of `Put` that has not panicked and whose claimed index, once it has
one, is below `cap`. -/
def Thread.SafePut (cap : Nat) (t : Thread α) : Prop :=
  match t.pc with
  | Pc.putHead _ | Pc.putPos _ _ | Pc.putCas _ _ | Pc.putDone _ => True
  | Pc.putPoll c _ | Pc.putStore c | Pc.putFlag c => c < cap
  | _ => False

/-- A call of `Get` that has not panicked and whose claimed index, once it has
one, is below `cap`. -/
def Thread.SafeGet (cap : Nat) (t : Thread α) : Prop :=
  match t.pc with
  | Pc.getHead _ | Pc.getPos _ _ | Pc.getCas _ _ | Pc.getDone _ => True
  | Pc.getPoll c _ | Pc.getRead c | Pc.getClear c _ => c < cap
  | _ => False

/-- A call running alone: `n` atomic steps on the buffer it started with. -/
def runSolo : Nat → RingBuffer α × Thread α → RingBuffer α × Thread α
  | 0, c => c
  | n + 1, c => runSolo n (step c.1 c.2)

/-- What a call of `Put` has produced: `none` while it is running, the
result of the sequential `Put` once it has returned or panicked. -/
def putResult (c : RingBuffer α × Thread α) : Option (Option (Bool × RingBuffer α)) :=
  match c.2.pc with
  | Pc.putDone ok => some (some (ok, c.1))
  | Pc.panicked => some none
  | _ => none

/-- What a call of `Get` has produced, in the same way. -/
def getResult (c : RingBuffer α × Thread α) : Option (Option (Option α × RingBuffer α)) :=
  match c.2.pc with
  | Pc.getDone val => some (some (val, c.1))
  | Pc.panicked => some none
  | _ => none

/-! ## Rounding up to a power of two -/

theorem topOnes_smear {m k j : Nat} (h : TopOnes m k j) :
    TopOnes (m ||| (m >>> j)) k (2 * j) := by
  obtain ⟨hlt, hb⟩ := h
  refine ⟨Nat.or_lt_two_pow hlt (lt_of_le_of_lt ?_ hlt), ?_⟩
  · rw [Nat.shiftRight_eq_div_pow]
    exact Nat.div_le_self _ _
  · intro i hi hk
    rw [Nat.testBit_or, Nat.testBit_shiftRight]
    by_cases h1 : k ≤ i + j
    · rw [hb i hi h1]; rfl
    · have h2 : m.testBit (j + i) = true := hb (j + i) (by omega) (by omega)
      rw [h2]; simp

theorem topOnes_init {m : Nat} (hm : m ≠ 0) : TopOnes m m.size 1 := by
  refine ⟨Nat.lt_size_self m, ?_⟩
  intro i hi hk
  have hle : 2 ^ i ≤ m := Nat.lt_size.mp hi
  have hlt : m < 2 ^ (i + 1) := by
    have := Nat.lt_size_self m
    have e : i + 1 = m.size := by omega
    rwa [e]
  obtain ⟨r, rfl⟩ : ∃ r, m = 2 ^ i + r := ⟨m - 2 ^ i, by omega⟩
  have hr : r < 2 ^ i := by
    rw [pow_succ] at hlt; omega
  rw [Nat.testBit_two_pow_add_eq, Nat.testBit_lt_two_pow hr]; rfl

theorem topOnes_all {m k j : Nat} (h : TopOnes m k j) (hk : k ≤ j) : m = 2 ^ k - 1 := by
  apply Nat.eq_of_testBit_eq
  intro i
  rw [Nat.testBit_two_pow_sub_one]
  by_cases hi : i < k
  · rw [h.2 i hi (by omega)]; simp [hi]
  · have : m < 2 ^ i := lt_of_lt_of_le h.1 (Nat.pow_le_pow_right (by norm_num) (by omega))
    rw [Nat.testBit_lt_two_pow this]; simp [hi]

theorem roundUp_eq (v : Nat) :
    roundUp v = (smear ((v + 4294967295) % 4294967296) + 1) % 4294967296 := rfl

theorem smear_eq {m : Nat} (hm : m < 4294967296) : smear m = 2 ^ m.size - 1 := by
  by_cases h0 : m = 0
  · subst h0; simp [smear]
  · have hs : m.size ≤ 32 := Nat.size_le.mpr (by norm_num; exact hm)
    have h := topOnes_smear (topOnes_smear (topOnes_smear (topOnes_smear
      (topOnes_smear (topOnes_init h0)))))
    exact topOnes_all h (by omega)

/-- On `1 ≤ v ≤ 2^31`, `roundUp v` is `2^k` for the least `k` with `v ≤ 2^k`. -/
theorem roundUp_pow {v : Nat} (h1 : 1 ≤ v) (h2 : v ≤ 2147483648) :
    ∃ k, k ≤ 31 ∧ roundUp v = 2 ^ k ∧ v ≤ 2 ^ k ∧ ∀ j, v ≤ 2 ^ j → k ≤ j := by
  have hm : (v + 4294967295) % 4294967296 = v - 1 := by omega
  have hk : (v - 1).size ≤ 31 := Nat.size_le.mpr (by norm_num; omega)
  have hlt := Nat.lt_size_self (v - 1)
  have hp : 2 ^ (v - 1).size ≤ 2 ^ 31 := Nat.pow_le_pow_right (by norm_num) hk
  have hpos : 0 < 2 ^ (v - 1).size := Nat.pow_pos (by norm_num)
  refine ⟨(v - 1).size, hk, ?_, by omega, ?_⟩
  · rw [roundUp_eq, hm, smear_eq (by omega)]
    norm_num at hp
    omega
  · intro j hj
    exact Nat.size_le.mpr (by omega)

/-- For `v = 0` and for `2^31 < v < 2^32` the increment of `roundUp` wraps
to `0`. -/
theorem roundUp_wrap {v : Nat} (h : v = 0 ∨ (2147483648 < v ∧ v < 4294967296)) :
    roundUp v = 0 := by
  have hlo : 2 ^ 31 ≤ (v + 4294967295) % 4294967296 := by norm_num; omega
  have hhi : (v + 4294967295) % 4294967296 < 2 ^ 32 := by norm_num; omega
  have h32 : ((v + 4294967295) % 4294967296).size = 32 :=
    le_antisymm (Nat.size_le.mpr hhi) (Nat.lt_size.mpr hlo)
  rw [roundUp_eq, smear_eq (by omega), h32]
  norm_num

/-! ## Sequential `Put` and `Get` in closed form -/

theorem compareAndSwap_self (c new : Nat) : compareAndSwap c c new = (true, new) := by
  simp [compareAndSwap]

theorem casStatus_hit (st : List Nat) (i old new : Nat) (h : st[i]? = some old) :
    casStatus st i old new = st.set i new := by
  simp [casStatus, h, compareAndSwap]

theorem putLoop_succ (v : Option α) (n : Nat) (r : RingBuffer α) :
    putLoop v (n + 1) r =
      if putFull r then putLoop v n r
      else if (compareAndSwap r.writer r.writer ((r.writer + 1) % 4294967296)).1 then
        putWait v (r.writer &&& r.mask) 10
          { r with writer := (compareAndSwap r.writer r.writer ((r.writer + 1) % 4294967296)).2 }
      else putLoop v n
          { r with writer := (compareAndSwap r.writer r.writer ((r.writer + 1) % 4294967296)).2 } :=
  rfl

theorem putWait_succ (v : Option α) (i n : Nat) (r : RingBuffer α) :
    putWait v i (n + 1) r =
      match r.status[i]? with
      | none => none
      | some status =>
        if status = 0 then
          if i < r.container.length then
            some (true, { r with container := r.container.set i v
                                 status := casStatus r.status i 0 1 })
          else none
        else putWait v i n r := rfl

theorem getLoop_succ (n : Nat) (r : RingBuffer α) :
    getLoop (n + 1) r =
      if r.writer = r.reader then some (none, r)
      else if (compareAndSwap r.reader r.reader ((r.reader + 1) % 4294967296)).1 then
        getWait (r.reader &&& r.mask) 10
          { r with reader := (compareAndSwap r.reader r.reader ((r.reader + 1) % 4294967296)).2 }
      else getLoop n
          { r with reader := (compareAndSwap r.reader r.reader ((r.reader + 1) % 4294967296)).2 } :=
  rfl

theorem getWait_succ (i n : Nat) (r : RingBuffer α) :
    getWait i (n + 1) r =
      match r.status[i]? with
      | none => none
      | some status =>
        if status = 1 then
          match r.container[i]? with
          | none => none
          | some val => some (val, { r with status := casStatus r.status i 1 0 })
        else getWait i n r := rfl

theorem putLoop_full (v : Option α) (r : RingBuffer α) (h : putFull r) (n : Nat) :
    putLoop v n r = some (false, r) := by
  induction n with
  | zero => rfl
  | succ n ih => rw [putLoop_succ, if_pos h, ih]

theorem putWait_busy (v : Option α) (i : Nat) (r : RingBuffer α) (s : Nat)
    (hs : r.status[i]? = some s) (h0 : s ≠ 0) (n : Nat) :
    putWait v i n r = some (false, r) := by
  induction n with
  | zero => rfl
  | succ n ih => rw [putWait_succ, hs]; simp only [h0, if_false, ih]

theorem getWait_busy (i : Nat) (r : RingBuffer α) (s : Nat)
    (hs : r.status[i]? = some s) (h1 : s ≠ 1) (n : Nat) :
    getWait i n r = some (none, r) := by
  induction n with
  | zero => rfl
  | succ n ih => rw [getWait_succ, hs]; simp only [h1, if_false, ih]

theorem Put_eq_putSeq (v : Option α) (r : RingBuffer α) : Put v r = putSeq v r := by
  unfold Put putSeq
  by_cases hf : putFull r
  · rw [putLoop_full v r hf, if_pos hf]
  · rw [if_neg hf, putLoop_succ, if_neg hf, compareAndSwap_self]
    simp only [if_true]
    cases hs : r.status[r.writer &&& r.mask]? with
    | none => rw [putWait_succ]; simp only [hs]
    | some s =>
      by_cases h0 : s = 0
      · subst h0
        rw [putWait_succ]
        simp only [hs, if_true, casStatus_hit _ _ _ _ hs]
      · rw [putWait_busy v _ { r with writer := (r.writer + 1) % 4294967296 } s hs h0]
        simp only [h0, if_false]

theorem Get_eq_getSeq (r : RingBuffer α) : Get r = getSeq r := by
  unfold Get getSeq
  by_cases he : r.writer = r.reader
  · rw [getLoop_succ, if_pos he, if_pos he]
  · rw [if_neg he, getLoop_succ, if_neg he, compareAndSwap_self]
    simp only [if_true]
    cases hs : r.status[r.reader &&& r.mask]? with
    | none => rw [getWait_succ]; simp only [hs]
    | some s =>
      by_cases h1 : s = 1
      · subst h1
        rw [getWait_succ]
        cases hc : r.container[r.reader &&& r.mask]? with
        | none => simp only [hs, hc, if_true]
        | some val => simp only [hs, hc, if_true, casStatus_hit _ _ _ _ hs]
      · rw [getWait_busy _ { r with reader := (r.reader + 1) % 4294967296 } s hs h1]
        simp only [h1, if_false]

/-! ## Construction -/

/-- What the unchecked constructor computes on an invalid capacity: for
`C = 0` and for every `2^31 < C < 2^32` the rounding wraps to `0` and the record
returned has capacity `0`, which is not a power of two, mask `2^32 - 1` and no
slots.  This is the defect, not a contract: `roundUp` is documented to take an
argument greater than `0` and the capacity is meant to be a power of two. -/
theorem newRingBuffer_invalid (α : Type) (C : Nat)
    (h : C = 0 ∨ (2147483648 < C ∧ C < 4294967296)) :
    (NewRingBuffer C : RingBuffer α) =
      { capacity := 0, mask := 4294967295, len := 0, container := [], status := [],
        reader := 0, writer := 0 } := by
  unfold NewRingBuffer
  rw [roundUp_wrap h]
  rfl

theorem newRingBuffer_invalid_witness :
    (4294967295 = 0 ∨ (2147483648 < 4294967295 ∧ 4294967295 < 4294967296)) ∧
    (NewRingBuffer 4294967295 : RingBuffer Nat) =
      { capacity := 0, mask := 4294967295, len := 0, container := [], status := [],
        reader := 0, writer := 0 } :=
  ⟨by decide, newRingBuffer_invalid Nat 4294967295 (by decide)⟩

/-- C6 is violated by the code at `C = 0` and at `C = 2^31 + 1`: instead of
reporting an invalid capacity the constructor returns a buffer, of capacity `0`
with mask `2^32 - 1` and no slots. -/
theorem newRingBuffer_zero_returns :
    (NewRingBuffer 0 : RingBuffer Nat) =
      { capacity := 0, mask := 4294967295, len := 0, container := [], status := [],
        reader := 0, writer := 0 } ∧
    (NewRingBuffer 2147483649 : RingBuffer Nat) =
      { capacity := 0, mask := 4294967295, len := 0, container := [], status := [],
        reader := 0, writer := 0 } := by
  decide

/-! ## Single calls on an arbitrary state -/

/-- C4: in every state with `writer = reader`, `Get` returns nil and leaves
the whole buffer (cursors, stored references, slot states) unchanged. -/
theorem get_empty (r : RingBuffer α) (h : r.writer = r.reader) :
    Get r = some (none, r) := by
  rw [Get_eq_getSeq, getSeq, if_pos h]

theorem get_empty_witness :
    Get ({ capacity := 2, mask := 1, len := 0, container := [some 7, none], status := [1, 0],
           reader := 4294967295, writer := 4294967295 } : RingBuffer Nat)
      = some (none, { capacity := 2, mask := 1, len := 0, container := [some 7, none],
                      status := [1, 0], reader := 4294967295, writer := 4294967295 }) :=
  get_empty _ rfl

/-- Once `reader + capacity` exceeds `2^32` and the writer has not wrapped
(`reader ≤ writer`), the fullness test of `Put` fires whatever the occupancy is: the sum
`reader - 1 + capacity` has wrapped and lies below the reader. -/
theorem put_refused_of_wrapped_sum (v : Option α) (r : RingBuffer α)
    (hc : r.capacity ≤ 4294967296) (hsum : 4294967296 < r.reader + r.capacity)
    (hle : r.reader ≤ r.writer) :
    Put v r = some (false, r) := by
  have hf : putFull r := by
    unfold putFull
    omega
  rw [Put_eq_putSeq, putSeq, if_pos hf]

/-- C7 fails at capacity `2`, `reader = writer = 2^32 - 1`, all slots EMPTY:
the fullness test `writer > reader - 1 + capacity` compares `2^32 - 1` with
`0`, so `Put` returns false and stores nothing. -/
theorem put_refused_near_wrap :
    Put (some 7) ({ capacity := 2, mask := 1, len := 0, container := [none, none],
                    status := [0, 0], reader := 4294967295, writer := 4294967295 } : RingBuffer Nat)
      = some (false, { capacity := 2, mask := 1, len := 0, container := [none, none],
                       status := [0, 0], reader := 4294967295, writer := 4294967295 }) := by
  decide

theorem put_true_inv (v : Option α) (r r1 : RingBuffer α) (h : Put v r = some (true, r1)) :
    ¬ putFull r ∧ r.status[r.writer &&& r.mask]? = some 0 ∧
    r.writer &&& r.mask < r.container.length ∧
    r1 = { r with writer := (r.writer + 1) % 4294967296
                  container := r.container.set (r.writer &&& r.mask) v
                  status := r.status.set (r.writer &&& r.mask) 1 } := by
  rw [Put_eq_putSeq, putSeq] at h
  by_cases hf : putFull r
  · rw [if_pos hf] at h; simp at h
  · rw [if_neg hf] at h
    cases hs : r.status[r.writer &&& r.mask]? with
    | none => rw [hs] at h; simp at h
    | some s =>
      rw [hs] at h
      by_cases h0 : s = 0
      · by_cases hc : r.writer &&& r.mask < r.container.length
        · simp only [h0, hc, if_true, Option.some.injEq, Prod.mk.injEq, true_and] at h
          exact ⟨hf, by rw [h0], hc, h.symm⟩
        · simp [h0, hc] at h
      · simp [h0] at h

/-- C9: if `Put v` returns true then the writer has advanced by one modulo
`2^32`, the reader is unchanged, `Len` has grown by one modulo `2^32`, the
slot at `old writer &&& mask` stores `v` with state FILLED (1), and every other
slot, its state, and the remaining fields are unchanged. -/
theorem put_success (v : Option α) (r r1 : RingBuffer α)
    (hrd : r.reader < 4294967296) (hwr : r.writer < 4294967296)
    (h : Put v r = some (true, r1)) :
    r1.writer = (r.writer + 1) % 4294967296 ∧ r1.reader = r.reader ∧
    Len r1 = (Len r + 1) % 4294967296 ∧
    r1.container[r.writer &&& r.mask]? = some v ∧
    r1.status[r.writer &&& r.mask]? = some 1 ∧
    (∀ i, i ≠ (r.writer &&& r.mask) →
      r1.container[i]? = r.container[i]? ∧ r1.status[i]? = r.status[i]?) ∧
    r1.container.length = r.container.length ∧ r1.status.length = r.status.length ∧
    r1.capacity = r.capacity ∧ r1.mask = r.mask ∧ r1.len = r.len := by
  obtain ⟨-, hs, hc, rfl⟩ := put_true_inv v r r1 h
  have hsl : r.writer &&& r.mask < r.status.length := by
    by_contra hcon
    rw [List.getElem?_eq_none (by omega)] at hs
    simp at hs
  refine ⟨rfl, rfl, ?_, ?_, ?_, ?_, ?_, ?_, rfl, rfl, rfl⟩
  · simp only [Len]; omega
  · simp [hc]
  · simp [hsl]
  · intro i hi
    constructor
    · simp [List.getElem?_set_ne (Ne.symm hi)]
    · simp [List.getElem?_set_ne (Ne.symm hi)]
  · simp
  · simp

theorem put_success_witness :
    Put (some 7) nearWrap = some (true, nearWrapPut) ∧
    nearWrapPut.writer = (nearWrap.writer + 1) % 4294967296 ∧
    nearWrapPut.reader = nearWrap.reader ∧
    Len nearWrapPut = (Len nearWrap + 1) % 4294967296 ∧
    nearWrapPut.container[nearWrap.writer &&& nearWrap.mask]? = some (some 7) ∧
    nearWrapPut.status[nearWrap.writer &&& nearWrap.mask]? = some 1 ∧
    (∀ i, i ≠ (nearWrap.writer &&& nearWrap.mask) →
      nearWrapPut.container[i]? = nearWrap.container[i]? ∧
      nearWrapPut.status[i]? = nearWrap.status[i]?) ∧
    nearWrapPut.container.length = nearWrap.container.length ∧
    nearWrapPut.status.length = nearWrap.status.length ∧
    nearWrapPut.capacity = nearWrap.capacity ∧ nearWrapPut.mask = nearWrap.mask ∧
    nearWrapPut.len = nearWrap.len :=
  ⟨by decide, put_success (some 7) nearWrap nearWrapPut (by decide) (by decide) (by decide)⟩

/-- C10: in a state with `writer ≠ reader` whose slot at `reader &&& mask` is
FILLED (1), `Get` returns the reference stored in that slot, advances the
reader by one modulo `2^32` (so `Len` drops by one), sets that slot state to
EMPTY (0) and changes nothing else: the writer, every other slot state and every
stored reference, the returned one included, stay as they were. -/
theorem get_success (r : RingBuffer α)
    (hrd : r.reader < 4294967296) (hwr : r.writer < 4294967296)
    (hlen : r.container.length = r.status.length)
    (hne : r.writer ≠ r.reader) (hs : r.status[r.reader &&& r.mask]? = some 1) :
    ∃ val r1, r.container[r.reader &&& r.mask]? = some val ∧ Get r = some (val, r1) ∧
      r1 = { r with reader := (r.reader + 1) % 4294967296
                    status := r.status.set (r.reader &&& r.mask) 0 } ∧
      r1.reader = (r.reader + 1) % 4294967296 ∧ Len r1 + 1 = Len r ∧
      r1.status[r.reader &&& r.mask]? = some 0 ∧
      (∀ i, i ≠ (r.reader &&& r.mask) → r1.status[i]? = r.status[i]?) ∧
      r1.writer = r.writer ∧ r1.container = r.container ∧
      r1.capacity = r.capacity ∧ r1.mask = r.mask ∧ r1.len = r.len := by
  have hsl : r.reader &&& r.mask < r.status.length := by
    by_contra hcon
    rw [List.getElem?_eq_none (by omega)] at hs
    simp at hs
  have hcl : r.reader &&& r.mask < r.container.length := by omega
  refine ⟨r.container[r.reader &&& r.mask], _, List.getElem?_eq_getElem hcl, ?_, rfl, rfl,
    ?_, ?_, ?_, rfl, rfl, rfl, rfl, rfl⟩
  · rw [Get_eq_getSeq, getSeq, if_neg hne, hs]
    simp only [if_true, List.getElem?_eq_getElem hcl]
  · simp only [Len]; omega
  · simp [hsl]
  · intro i hi
    simp [List.getElem?_set_ne (Ne.symm hi)]

theorem get_success_witness :
    ∃ val r1, nearWrapPut.container[nearWrapPut.reader &&& nearWrapPut.mask]? = some val ∧
      Get nearWrapPut = some (val, r1) ∧
      r1 = { nearWrapPut with reader := (nearWrapPut.reader + 1) % 4294967296
                              status := nearWrapPut.status.set
                                (nearWrapPut.reader &&& nearWrapPut.mask) 0 } ∧
      r1.reader = (nearWrapPut.reader + 1) % 4294967296 ∧ Len r1 + 1 = Len nearWrapPut ∧
      r1.status[nearWrapPut.reader &&& nearWrapPut.mask]? = some 0 ∧
      (∀ i, i ≠ (nearWrapPut.reader &&& nearWrapPut.mask) →
        r1.status[i]? = nearWrapPut.status[i]?) ∧
      r1.writer = nearWrapPut.writer ∧ r1.container = nearWrapPut.container ∧
      r1.capacity = nearWrapPut.capacity ∧ r1.mask = nearWrapPut.mask ∧
      r1.len = nearWrapPut.len :=
  get_success nearWrapPut (by decide) (by decide) (by decide) (by decide) (by decide)

/-! ## The buffer as a queue, before the cursors wrap -/

theorem add_mod_inj {c a b n : Nat} (ha : a < c) (hb : b < c)
    (h : (n + a) % c = (n + b) % c) : a = b := by
  have h1 : a ≡ b [MOD c] := Nat.ModEq.add_left_cancel' n h
  have h2 : a % c = b % c := h1
  rwa [Nat.mod_eq_of_lt ha, Nat.mod_eq_of_lt hb] at h2

theorem Holds.cap_pos {r : RingBuffer α} {q : List (Option α)} (h : Holds r q) :
    0 < r.capacity := by
  obtain ⟨k, hk⟩ := h.pow
  rw [hk]; exact Nat.pow_pos (by norm_num)

theorem Holds.index {r : RingBuffer α} {q : List (Option α)} (h : Holds r q) (c : Nat) :
    c &&& r.mask = c % r.capacity := by
  obtain ⟨k, hk⟩ := h.pow
  rw [h.mask_eq, hk, Nat.and_pow_two_sub_one_eq_mod]

theorem Holds.len_eq {r : RingBuffer α} {q : List (Option α)} (h : Holds r q) :
    Len r = q.length := by
  have h1 := h.wr
  have h2 := h.bound
  have h3 := h.le_cap
  have h4 := h.cap_pos
  simp only [Len]
  omega

theorem holds_new (C : Nat) (h1 : 1 ≤ C) (h2 : C ≤ 2147483648) :
    Holds (NewRingBuffer C : RingBuffer α) [] := by
  obtain ⟨k, hk, hr, -, -⟩ := roundUp_pow h1 h2
  have hp : 2 ^ k ≤ 2 ^ 31 := Nat.pow_le_pow_right (by norm_num) hk
  have hpos : 0 < 2 ^ k := Nat.pow_pos (by norm_num)
  norm_num at hp
  have hc : (NewRingBuffer C : RingBuffer α).capacity = 2 ^ k := hr
  refine ⟨⟨k, hc⟩, ?_, ?_, ?_, rfl, Nat.zero_le _, ?_, ?_, ?_⟩
  · show (roundUp C + 4294967295) % 4294967296 = roundUp C - 1
    rw [hr]; omega
  · show (List.replicate (roundUp C) none).length = roundUp C
    simp
  · show (List.replicate (roundUp C) 0).length = roundUp C
    simp
  · show 0 + roundUp C ≤ 4294967296
    rw [hr]; omega
  · intro j hj
    simp at hj
  · intro j _ hj
    show (List.replicate (roundUp C) 0)[(0 + j) % roundUp C]? = some 0
    rw [List.getElem?_replicate]
    rw [if_pos (Nat.mod_lt _ (by rw [hr]; exact hpos))]

theorem Holds.put_full {r : RingBuffer α} {q : List (Option α)} (h : Holds r q)
    (hq : q.length = r.capacity) (v : Option α) : Put v r = some (false, r) := by
  have h1 := h.wr
  have h2 := h.bound
  have h3 := h.cap_pos
  have hf : putFull r := by
    unfold putFull
    omega
  rw [Put_eq_putSeq, putSeq, if_pos hf]

theorem Holds.put_ok {r : RingBuffer α} {q : List (Option α)} (h : Holds r q)
    (hq : q.length < r.capacity) (hb : r.writer + r.capacity < 4294967296) (v : Option α) :
    ∃ r1, Put v r = some (true, r1) ∧ Holds r1 (q ++ [v]) := by
  have h1 := h.wr
  have h3 := h.cap_pos
  have hf : ¬ putFull r := by
    unfold putFull
    omega
  have hi : r.writer &&& r.mask = (r.reader + q.length) % r.capacity := by
    rw [h.index, h1]
  have hil : (r.reader + q.length) % r.capacity < r.capacity := Nat.mod_lt _ h3
  have hs := h.empty q.length (le_refl _) hq
  refine ⟨{ r with writer := (r.writer + 1) % 4294967296
                   container := r.container.set (r.writer &&& r.mask) v
                   status := r.status.set (r.writer &&& r.mask) 1 }, ?_, ?_⟩
  · rw [Put_eq_putSeq, putSeq, if_neg hf, hi, hs]
    simp only [if_true, h.clen, hil]
  · rw [hi]
    refine ⟨h.pow, h.mask_eq, ?_, ?_, ?_, ?_, ?_, ?_, ?_⟩
    · simp [h.clen]
    · simp [h.slen]
    · show (r.writer + 1) % 4294967296 = r.reader + (q ++ [v]).length
      simp only [List.length_append, List.length_singleton]
      omega
    · simp only [List.length_append, List.length_singleton]
      omega
    · show (r.writer + 1) % 4294967296 + r.capacity ≤ 4294967296
      omega
    · intro j hj
      simp only [List.length_append, List.length_singleton] at hj
      show (r.status.set _ 1)[(r.reader + j) % r.capacity]? = some 1 ∧
        (r.container.set _ v)[(r.reader + j) % r.capacity]? = (q ++ [v])[j]?
      by_cases hjq : j = q.length
      · subst hjq
        simp [h.slen, h.clen, hil]
      · have hj' : j < q.length := by omega
        have hne : (r.reader + q.length) % r.capacity ≠ (r.reader + j) % r.capacity :=
          fun e => hjq (add_mod_inj (by omega) hq e.symm)
        rw [List.getElem?_set_ne hne, List.getElem?_set_ne hne,
          List.getElem?_append_left hj']
        exact h.filled j hj'
    · intro j hj hjc
      simp only [List.length_append, List.length_singleton] at hj
      show (r.status.set _ 1)[(r.reader + j) % r.capacity]? = some 0
      have hne : (r.reader + q.length) % r.capacity ≠ (r.reader + j) % r.capacity :=
        fun e => by have := add_mod_inj hq hjc e; omega
      rw [List.getElem?_set_ne hne]
      exact h.empty j (by omega) hjc

theorem Holds.get_ok {r : RingBuffer α} {q : List (Option α)} {x : Option α}
    (h : Holds r (x :: q)) :
    ∃ r1, Get r = some (x, r1) ∧ Holds r1 q := by
  have h1 := h.wr
  have h2 := h.bound
  have h3 := h.cap_pos
  have h4 := h.le_cap
  simp only [List.length_cons] at h1 h4
  have hne : r.writer ≠ r.reader := by omega
  have hi : r.reader &&& r.mask = r.reader % r.capacity := h.index _
  have hil : r.reader % r.capacity < r.capacity := Nat.mod_lt _ h3
  obtain ⟨hs, hc⟩ := h.filled 0 (by simp)
  simp only [Nat.add_zero, List.getElem?_cons_zero] at hs hc
  have hrd : (r.reader + 1) % 4294967296 = r.reader + 1 := by omega
  refine ⟨{ r with reader := (r.reader + 1) % 4294967296
                   status := r.status.set (r.reader &&& r.mask) 0 }, ?_, ?_⟩
  · rw [Get_eq_getSeq, getSeq, if_neg hne, hi, hs]
    simp only [if_true, hc]
  · rw [hi, hrd]
    refine ⟨h.pow, h.mask_eq, h.clen, ?_, ?_, ?_, h.bound, ?_, ?_⟩
    · simp [h.slen]
    · show r.writer = r.reader + 1 + q.length
      omega
    · show q.length ≤ r.capacity
      omega
    · intro j hj
      show (r.status.set _ 0)[(r.reader + 1 + j) % r.capacity]? = some 1 ∧
        r.container[(r.reader + 1 + j) % r.capacity]? = q[j]?
      have e : r.reader + 1 + j = r.reader + (j + 1) := by omega
      rw [e]
      have hne : r.reader % r.capacity ≠ (r.reader + (j + 1)) % r.capacity := by
        intro e1
        have := add_mod_inj (n := r.reader) (a := 0) (b := j + 1) h3 (by omega) e1
        omega
      rw [List.getElem?_set_ne hne]
      have := h.filled (j + 1) (by simp; omega)
      simpa using this
    · intro j hj hjc
      replace hjc : j < r.capacity := hjc
      show (r.status.set _ 0)[(r.reader + 1 + j) % r.capacity]? = some 0
      by_cases hl : j + 1 = r.capacity
      · have e : r.reader + 1 + j = r.reader + r.capacity := by omega
        rw [e, Nat.add_mod_right]
        simp [h.slen, hil]
      · have e : r.reader + 1 + j = r.reader + (j + 1) := by omega
        rw [e]
        have hne : r.reader % r.capacity ≠ (r.reader + (j + 1)) % r.capacity := by
          intro e1
          have := add_mod_inj (n := r.reader) (a := 0) (b := j + 1) h3 (by omega) e1
          omega
        rw [List.getElem?_set_ne hne]
        exact h.empty (j + 1) (by simp; omega) (by omega)

/-! ## Sequences of calls -/

theorem run_cons (c : Call α) (cs : List (Call α)) (r r1 r2 : RingBuffer α) (x : Ret α)
    (xs : List (Ret α × Nat)) (h1 : call c r = some (x, r1)) (h2 : run cs r1 = some (xs, r2)) :
    run (c :: cs) r = some ((x, Len r1) :: xs, r2) := by
  simp only [run, h1, h2]

theorem run_append (cs ds : List (Call α)) (r r1 r2 : RingBuffer α)
    (xs ys : List (Ret α × Nat)) (h1 : run cs r = some (xs, r1))
    (h2 : run ds r1 = some (ys, r2)) :
    run (cs ++ ds) r = some (xs ++ ys, r2) := by
  induction cs generalizing r xs with
  | nil =>
    simp only [run, Option.some.injEq, Prod.mk.injEq] at h1
    obtain ⟨rfl, rfl⟩ := h1
    simpa using h2
  | cons c cs ih =>
    simp only [run] at h1
    cases hc : call c r with
    | none => rw [hc] at h1; simp at h1
    | some p =>
      obtain ⟨x, r3⟩ := p
      rw [hc] at h1
      simp only at h1
      cases hr : run cs r3 with
      | none => rw [hr] at h1; simp at h1
      | some p2 =>
        obtain ⟨zs, r4⟩ := p2
        rw [hr] at h1
        simp only [Option.some.injEq, Prod.mk.injEq] at h1
        obtain ⟨rfl, rfl⟩ := h1
        have := ih r3 zs hr
        rw [List.cons_append, List.cons_append]
        exact run_cons c _ r r3 r2 x _ hc this

theorem Holds.run_puts {r : RingBuffer α} {q : List (Option α)} (h : Holds r q)
    (xs : List (Option α)) (hq : q.length + xs.length ≤ r.capacity)
    (hb : r.writer + xs.length + r.capacity ≤ 4294967296) :
    ∃ r1, run (xs.map Call.put) r = some (putTrace q.length xs, r1) ∧ Holds r1 (q ++ xs) ∧
      r1.capacity = r.capacity := by
  induction xs generalizing r q with
  | nil => exact ⟨r, rfl, by simpa using h, rfl⟩
  | cons x xs ih =>
    simp only [List.length_cons] at hq hb
    obtain ⟨r1, hp, h1⟩ := h.put_ok (by omega) (by omega) x
    have hcap : r1.capacity = r.capacity := by
      have := (put_true_inv x r r1 hp).2.2.2
      rw [this]
    have hw : r1.writer = r.writer + 1 := by
      have e1 := h1.wr
      have e2 := h.wr
      simp only [List.length_append, List.length_singleton] at e1
      have := (put_true_inv x r r1 hp).2.2.2
      have e3 : r1.reader = r.reader := by rw [this]
      omega
    obtain ⟨r2, hr, h2, hc2⟩ := ih h1
      (by simp only [List.length_append, List.length_singleton]; omega) (by omega)
    refine ⟨r2, ?_, by simpa using h2, by omega⟩
    have hl : Len r1 = q.length + 1 := by
      rw [h1.len_eq]; simp
    have hcall : call (Call.put x) r = some (Ret.put true, r1) := by
      simp [call, hp]
    have := run_cons (Call.put x) _ r r1 r2 _ _ hcall hr
    rw [hl] at this
    simpa [putTrace] using this

theorem Holds.run_gets {r : RingBuffer α} {q : List (Option α)} (h : Holds r q) :
    ∃ r1, run (q.map fun _ => Call.get) r = some (getTrace q, r1) ∧ Holds r1 [] := by
  induction q generalizing r with
  | nil => exact ⟨r, rfl, h⟩
  | cons x q ih =>
    obtain ⟨r1, hg, h1⟩ := h.get_ok
    obtain ⟨r2, hr, h2⟩ := ih h1
    refine ⟨r2, ?_, h2⟩
    have hcall : call Call.get r = some (Ret.get x, r1) := by
      simp [call, hg]
    have := run_cons Call.get _ r r1 r2 _ _ hcall hr
    rw [h1.len_eq] at this
    simpa [getTrace] using this

/-! ## Fresh buffers -/

/-- C1: on `NewRingBuffer C` with `1 ≤ C ≤ 2^31`, putting a list `xs` no
longer than the capacity makes every `Put` return true with `Len()` equal to
the number of items put so far, the following `xs.length` calls of `Get` return
the items in insertion order with `Len()` going down by one each time, and one
more `Get` returns nil with `Len() = 0`. -/
theorem fifo_fresh (α : Type) (C : Nat) (h1 : 1 ≤ C) (h2 : C ≤ 2147483648)
    (xs : List (Option α)) (hn : xs.length ≤ (NewRingBuffer C : RingBuffer α).capacity) :
    ∃ r1, run (xs.map Call.put ++ (xs.map fun _ => Call.get) ++ [Call.get])
        (NewRingBuffer C : RingBuffer α)
      = some (putTrace 0 xs ++ getTrace xs ++ [(Ret.get none, 0)], r1) := by
  have h0 : Holds (NewRingBuffer C : RingBuffer α) [] := holds_new C h1 h2
  obtain ⟨k, hk, hr, -, -⟩ := roundUp_pow h1 h2
  have hp : 2 ^ k ≤ 2 ^ 31 := Nat.pow_le_pow_right (by norm_num) hk
  norm_num at hp
  have hc : (NewRingBuffer C : RingBuffer α).capacity = 2 ^ k := hr
  have hw : (NewRingBuffer C : RingBuffer α).writer = 0 := rfl
  obtain ⟨ra, hputs, ha, -⟩ := h0.run_puts xs (by simpa using hn) (by rw [hw, hc]; omega)
  simp only [List.nil_append, List.length_nil] at hputs ha
  obtain ⟨rb, hgets, hb⟩ := ha.run_gets
  have hlast : run [Call.get] rb = some ([(Ret.get none, 0)], rb) := by
    have he : rb.writer = rb.reader := by simpa using hb.wr
    have hcall : call Call.get rb = some (Ret.get none, rb) := by
      simp [call, Get_eq_getSeq, getSeq, he]
    have := run_cons Call.get [] rb rb rb _ [] hcall rfl
    rwa [hb.len_eq] at this
  exact ⟨rb, run_append _ _ _ _ _ _ _ (run_append _ _ _ _ _ _ _ hputs hgets) hlast⟩

theorem fifo_fresh_witness :
    ∃ r1, run ([some 1, some 2, some 3].map Call.put
          ++ ([some 1, some 2, some 3].map fun _ => Call.get) ++ [Call.get])
        (NewRingBuffer 5 : RingBuffer Nat)
      = some (putTrace 0 [some 1, some 2, some 3] ++ getTrace [some 1, some 2, some 3]
          ++ [(Ret.get none, 0)], r1) :=
  fifo_fresh Nat 5 (by decide) (by decide) [some 1, some 2, some 3] (by decide)

/-- C2: on `NewRingBuffer C` with `1 ≤ C ≤ 2^31`, `Len()` is `0`, `Put x`
returns true, the following `Get` returns the same reference `x`, and `Len()`
is `0` again. -/
theorem put_get_fresh (α : Type) (C : Nat) (h1 : 1 ≤ C) (h2 : C ≤ 2147483648)
    (x : Option α) :
    Len (NewRingBuffer C : RingBuffer α) = 0 ∧
    ∃ r1 r2, Put x (NewRingBuffer C : RingBuffer α) = some (true, r1) ∧
      Get r1 = some (x, r2) ∧ Len r2 = 0 := by
  have h0 : Holds (NewRingBuffer C : RingBuffer α) [] := holds_new C h1 h2
  obtain ⟨k, hk, hr, -, -⟩ := roundUp_pow h1 h2
  have hp : 2 ^ k ≤ 2 ^ 31 := Nat.pow_le_pow_right (by norm_num) hk
  have hpos : 0 < 2 ^ k := Nat.pow_pos (by norm_num)
  norm_num at hp
  have hc : (NewRingBuffer C : RingBuffer α).capacity = 2 ^ k := hr
  have hw : (NewRingBuffer C : RingBuffer α).writer = 0 := rfl
  obtain ⟨r1, hput, ha⟩ := h0.put_ok (by rw [hc]; simp) (by rw [hw, hc]; omega) x
  obtain ⟨r2, hget, hb⟩ := ha.get_ok
  exact ⟨h0.len_eq, r1, r2, hput, hget, hb.len_eq⟩

theorem put_get_fresh_witness :
    Len (NewRingBuffer 2147483648 : RingBuffer Nat) = 0 ∧
    ∃ r1 r2, Put (some 7) (NewRingBuffer 2147483648 : RingBuffer Nat) = some (true, r1) ∧
      Get r1 = some (some 7, r2) ∧ Len r2 = 0 :=
  put_get_fresh Nat 2147483648 (by decide) (by decide) (some 7)

/-- C3: on `NewRingBuffer C` with `1 ≤ C ≤ 2^31` and capacity `cap`, the first
`cap` calls of `Put` (of any items `xs`) all return true, and then every further
`Put` returns false and leaves the whole buffer unchanged, with `Len() = cap`. -/
theorem fill_fresh (α : Type) (C : Nat) (h1 : 1 ≤ C) (h2 : C ≤ 2147483648)
    (xs : List (Option α)) (hn : xs.length = (NewRingBuffer C : RingBuffer α).capacity) :
    ∃ r1, run (xs.map Call.put) (NewRingBuffer C : RingBuffer α)
        = some (putTrace 0 xs, r1) ∧
      (∀ v, Put v r1 = some (false, r1)) ∧
      Len r1 = (NewRingBuffer C : RingBuffer α).capacity := by
  have h0 : Holds (NewRingBuffer C : RingBuffer α) [] := holds_new C h1 h2
  obtain ⟨k, hk, hr, -, -⟩ := roundUp_pow h1 h2
  have hp : 2 ^ k ≤ 2 ^ 31 := Nat.pow_le_pow_right (by norm_num) hk
  norm_num at hp
  have hc : (NewRingBuffer C : RingBuffer α).capacity = 2 ^ k := hr
  have hw : (NewRingBuffer C : RingBuffer α).writer = 0 := rfl
  obtain ⟨ra, hputs, ha, hcap⟩ :=
    h0.run_puts xs (by simp [hn]) (by rw [hw, hc]; omega)
  simp only [List.nil_append, List.length_nil] at hputs ha
  refine ⟨ra, hputs, fun v => ha.put_full (by rw [hcap, hn]) v, ?_⟩
  rw [ha.len_eq, hn]

theorem fill_fresh_witness :
    ∃ r1, run ([some 1, none, some 3, some 1].map Call.put) (NewRingBuffer 3 : RingBuffer Nat)
        = some (putTrace 0 [some 1, none, some 3, some 1], r1) ∧
      (∀ v, Put v r1 = some (false, r1)) ∧
      Len r1 = (NewRingBuffer 3 : RingBuffer Nat).capacity :=
  fill_fresh Nat 3 (by decide) (by decide) [some 1, none, some 3, some 1] (by decide)

/-! ## Across the 32-bit boundary -/

theorem oneSlot_put (n : Nat) (hn : n < 4294967296) (c v : Option α) :
    Put v (oneSlot n c) = some (true, oneSlotFilled n ((n + 1) % 4294967296) v) := by
  have hf : ¬ putFull (oneSlot n c) := by
    show ¬ (n > (n + 4294967295 + 1) % 4294967296)
    omega
  rw [Put_eq_putSeq, putSeq, if_neg hf]
  simp [oneSlot, oneSlotFilled]

theorem oneSlotFilled_get (n : Nat) (v : Option α) :
    Get (oneSlotFilled n ((n + 1) % 4294967296) v)
      = some (v, oneSlot ((n + 1) % 4294967296) v) := by
  have hne : (n + 1) % 4294967296 ≠ n := by omega
  rw [Get_eq_getSeq, getSeq]
  simp [oneSlot, oneSlotFilled, hne]

theorem oneSlot_cycle (n : Nat) (hn : n < 4294967296) (c v : Option α) :
    ∃ t, run [Call.put v, Call.get] (oneSlot n c)
      = some (t, oneSlot ((n + 1) % 4294967296) v) := by
  have h1 : call (Call.put v) (oneSlot n c)
      = some (Ret.put true, oneSlotFilled n ((n + 1) % 4294967296) v) := by
    simp [call, oneSlot_put n hn]
  have h2 : call Call.get (oneSlotFilled n ((n + 1) % 4294967296) v)
      = some (Ret.get v, oneSlot ((n + 1) % 4294967296) v) := by
    simp [call, oneSlotFilled_get n]
  exact ⟨_, run_cons _ _ _ _ _ _ _ h1 (run_cons _ [] _ _ _ _ [] h2 rfl)⟩

theorem oneSlot_cycles (k n : Nat) (hn : n < 4294967296) (c v : Option α) :
    ∃ t c1, run (cycles v k) (oneSlot n c) = some (t, oneSlot ((n + k) % 4294967296) c1) := by
  induction k generalizing n c with
  | zero => exact ⟨[], c, by rw [Nat.add_zero, Nat.mod_eq_of_lt hn]; rfl⟩
  | succ k ih =>
    obtain ⟨t1, h1⟩ := oneSlot_cycle n hn c v
    obtain ⟨t2, c1, h2⟩ := ih ((n + 1) % 4294967296) (Nat.mod_lt _ (by norm_num)) v
    refine ⟨t1 ++ t2, c1, ?_⟩
    have e : (n + (k + 1)) % 4294967296 = ((n + 1) % 4294967296 + k) % 4294967296 := by omega
    rw [e]
    exact run_append [Call.put v, Call.get] (cycles v k) _ _ _ _ _ h1 h2

/-- C8 fails on `NewRingBuffer 1`: after `2^32 - 1` rounds of `Put; Get` both
cursors are at `2^32 - 1`; the next `Put` wraps the writer to `0`, and the `Put`
after it passes the fullness test (`0 > 2^32 - 1` is false), claims a cursor
value and returns false, leaving `Len() = 2` on a buffer of capacity `1`. -/
theorem len_exceeds_capacity :
    ∃ t r, run (cycles (some 0) 4294967295 ++ [Call.put (some 1), Call.put (some 2)])
        (NewRingBuffer 1 : RingBuffer Nat) = some (t, r) ∧
      r.capacity = 1 ∧ Len r = 2 := by
  obtain ⟨t, c1, h⟩ := oneSlot_cycles 4294967295 0 (by norm_num) (none : Option Nat) (some 0)
  have h0 : (NewRingBuffer 1 : RingBuffer Nat) = oneSlot 0 none := by decide
  have e : (0 + 4294967295) % 4294967296 = 4294967295 := by norm_num
  rw [e] at h
  have h1 : call (Call.put (some 1)) (oneSlot 4294967295 c1)
      = some (Ret.put true, oneSlotFilled 4294967295 0 (some 1)) := by
    simp [call, oneSlot_put 4294967295 (by norm_num)]
  have hp2 : Put (some 2) (oneSlotFilled 4294967295 0 (some 1))
      = some (false, oneSlotFilled 4294967295 1 (some 1)) := by
    decide
  have h2 : call (Call.put (some 2)) (oneSlotFilled 4294967295 0 (some 1))
      = some (Ret.put false, oneSlotFilled 4294967295 1 (some 1)) := by
    simp [call, hp2]
  have hrun := run_append _ _ _ _ _ _ _ h
    (run_cons _ _ _ _ _ _ _ h1 (run_cons _ [] _ _ _ _ [] h2 rfl))
  rw [← h0] at hrun
  exact ⟨_, _, hrun, rfl, by decide⟩

/-! ## Orphaned claims, the mask, and `roundUp` -/

/-- C15: when the fullness test of `Put` does not fire and the slot at
`writer &&& mask` has a state other than EMPTY (0), `Put` returns false,
advances the writer by one modulo `2^32` and leaves the reader, every stored
reference and every slot state unchanged. -/
theorem put_orphan (v : Option α) (r : RingBuffer α) (s : Nat)
    (hf : ¬ r.writer > (r.reader + 4294967295 + r.capacity) % 4294967296)
    (hs : r.status[r.writer &&& r.mask]? = some s) (h0 : s ≠ 0) :
    Put v r = some (false, { r with writer := (r.writer + 1) % 4294967296 }) := by
  have hf' : ¬ putFull r := hf
  rw [Put_eq_putSeq, putSeq, if_neg hf', hs]
  simp only [h0, if_false]

theorem put_orphan_witness :
    Put (some 7) staleSlot = some (false, { staleSlot with writer := (staleSlot.writer + 1) % 4294967296 }) :=
  put_orphan (some 7) staleSlot 1 (by decide) (by decide) (by decide)

/-- C16: when `writer ≠ reader` and the slot at `reader &&& mask` has a state
other than FILLED (1), `Get` returns nil, advances the reader by one modulo
`2^32`, so that `Len()` drops by one, and leaves the writer, every stored
reference and every slot state unchanged. -/
theorem get_orphan (r : RingBuffer α) (s : Nat)
    (hrd : r.reader < 4294967296) (hwr : r.writer < 4294967296)
    (hne : r.writer ≠ r.reader)
    (hs : r.status[r.reader &&& r.mask]? = some s) (h1 : s ≠ 1) :
    Get r = some (none, { r with reader := (r.reader + 1) % 4294967296 }) ∧
    Len ({ r with reader := (r.reader + 1) % 4294967296 } : RingBuffer α) + 1 = Len r := by
  constructor
  · rw [Get_eq_getSeq, getSeq, if_neg hne, hs]
    simp only [h1, if_false]
  · simp only [Len]
    omega

theorem get_orphan_witness :
    Get missingSlot
      = some (none, { missingSlot with reader := (missingSlot.reader + 1) % 4294967296 }) ∧
    Len ({ missingSlot with reader := (missingSlot.reader + 1) % 4294967296 } : RingBuffer Nat) + 1
      = Len missingSlot :=
  get_orphan missingSlot 0 (by decide) (by decide) (by decide) (by decide) (by decide)

/-- C17: with the capacity and mask stored by `NewRingBuffer C`, `1 ≤ C ≤ 2^31`,
every cursor value `c` (32-bit or not) has `c &&& mask = c % capacity`, which is below the
capacity and a valid index into both slices, and the next cursor value modulo
`2^32` maps to the next index modulo the capacity. -/
theorem mask_is_mod (α : Type) (C : Nat) (h1 : 1 ≤ C) (h2 : C ≤ 2147483648)
    (c : Nat) :
    c &&& (NewRingBuffer C : RingBuffer α).mask = c % (NewRingBuffer C : RingBuffer α).capacity ∧
    c &&& (NewRingBuffer C : RingBuffer α).mask < (NewRingBuffer C : RingBuffer α).capacity ∧
    c &&& (NewRingBuffer C : RingBuffer α).mask < (NewRingBuffer C : RingBuffer α).container.length ∧
    c &&& (NewRingBuffer C : RingBuffer α).mask < (NewRingBuffer C : RingBuffer α).status.length ∧
    ((c + 1) % 4294967296) &&& (NewRingBuffer C : RingBuffer α).mask
      = ((c &&& (NewRingBuffer C : RingBuffer α).mask) + 1)
          % (NewRingBuffer C : RingBuffer α).capacity := by
  have h0 : Holds (NewRingBuffer C : RingBuffer α) [] := holds_new C h1 h2
  obtain ⟨k, hk, hr, -, -⟩ := roundUp_pow h1 h2
  have hcap : (NewRingBuffer C : RingBuffer α).capacity = 2 ^ k := hr
  have hlt : c % (NewRingBuffer C : RingBuffer α).capacity
      < (NewRingBuffer C : RingBuffer α).capacity := Nat.mod_lt _ h0.cap_pos
  have hdvd : (NewRingBuffer C : RingBuffer α).capacity ∣ 4294967296 := by
    have e : (4294967296 : Nat) = 2 ^ 32 := by norm_num
    rw [hcap, e]
    exact Nat.pow_dvd_pow 2 (by omega)
  rw [h0.index, h0.index, h0.clen, h0.slen]
  refine ⟨rfl, hlt, hlt, hlt, ?_⟩
  rw [Nat.mod_mod_of_dvd _ hdvd, Nat.add_mod]
  conv_rhs => rw [Nat.add_mod, Nat.mod_mod]

theorem mask_is_mod_witness :
    4294967295 &&& (NewRingBuffer 5 : RingBuffer Nat).mask
      = 4294967295 % (NewRingBuffer 5 : RingBuffer Nat).capacity ∧
    4294967295 &&& (NewRingBuffer 5 : RingBuffer Nat).mask
      < (NewRingBuffer 5 : RingBuffer Nat).capacity ∧
    4294967295 &&& (NewRingBuffer 5 : RingBuffer Nat).mask
      < (NewRingBuffer 5 : RingBuffer Nat).container.length ∧
    4294967295 &&& (NewRingBuffer 5 : RingBuffer Nat).mask
      < (NewRingBuffer 5 : RingBuffer Nat).status.length ∧
    ((4294967295 + 1) % 4294967296) &&& (NewRingBuffer 5 : RingBuffer Nat).mask
      = ((4294967295 &&& (NewRingBuffer 5 : RingBuffer Nat).mask) + 1)
          % (NewRingBuffer 5 : RingBuffer Nat).capacity :=
  mask_is_mod Nat 5 (by decide) (by decide) 4294967295

/-- C19: for `1 ≤ v ≤ 2^31`, `roundUp v` is a power of two `p` with
`v ≤ p < 2 * v`, it equals `v` exactly when `v` is a power of two, and
`roundUp` is idempotent there; for `v = 0` and for `2^31 < v < 2^32`,
`roundUp v = 0`. -/
theorem roundUp_exact (v : Nat) (hv : v < 4294967296) :
    (1 ≤ v → v ≤ 2147483648 →
      (∃ k, roundUp v = 2 ^ k) ∧ v ≤ roundUp v ∧ roundUp v < 2 * v ∧
      (roundUp v = v ↔ ∃ j, v = 2 ^ j) ∧ roundUp (roundUp v) = roundUp v) ∧
    (v = 0 ∨ 2147483648 < v → roundUp v = 0) := by
  constructor
  · intro h1 h2
    obtain ⟨k, hk, hr, hle, hmin⟩ := roundUp_pow h1 h2
    have hiff : roundUp v = v ↔ ∃ j, v = 2 ^ j := by
      constructor
      · intro e
        exact ⟨k, by rw [← e, hr]⟩
      · rintro ⟨j, rfl⟩
        rw [hr]
        have hkj : k ≤ j := hmin j (le_refl _)
        have hjk : j ≤ k := (Nat.pow_le_pow_iff_right (by norm_num)).mp hle
        rw [le_antisymm hkj hjk]
    have hpk : 2 ^ k ≤ 2 ^ 31 := Nat.pow_le_pow_right (by norm_num) hk
    have hpos : 0 < 2 ^ k := Nat.pow_pos (by norm_num)
    norm_num at hpk
    refine ⟨⟨k, hr⟩, by rw [hr]; exact hle, ?_, hiff, ?_⟩
    · rw [hr]
      cases k with
      | zero => simp; omega
      | succ k =>
        have hnot : ¬ v ≤ 2 ^ k := fun h => by have := hmin k h; omega
        rw [pow_succ]
        omega
    · obtain ⟨k2, -, hr2, hle2, hmin2⟩ := roundUp_pow (v := roundUp v) (by omega) (by omega)
      rw [hr2, hr]
      rw [hr] at hle2 hmin2
      have hkj : k2 ≤ k := hmin2 k (le_refl _)
      have hjk : k ≤ k2 := (Nat.pow_le_pow_iff_right (by norm_num)).mp hle2
      rw [le_antisymm hkj hjk]
  · intro h
    apply roundUp_wrap
    rcases h with h | h
    · exact Or.inl h
    · exact Or.inr ⟨h, hv⟩

theorem roundUp_exact_witness :
    (1 ≤ 2147483647 → 2147483647 ≤ 2147483648 →
      (∃ k, roundUp 2147483647 = 2 ^ k) ∧ 2147483647 ≤ roundUp 2147483647 ∧
      roundUp 2147483647 < 2 * 2147483647 ∧
      (roundUp 2147483647 = 2147483647 ↔ ∃ j, 2147483647 = 2 ^ j) ∧
      roundUp (roundUp 2147483647) = roundUp 2147483647) ∧
    (2147483647 = 0 ∨ 2147483648 < 2147483647 → roundUp 2147483647 = 0) :=
  roundUp_exact 2147483647 (by decide)

/-! ## The fullness test at the 32-bit boundary -/

/-- C13 fails in both directions.  With capacity `2` and both cursors at
`2^32 - 1` the occupancy is `0` and the test fires; with capacity `1`,
`reader = 2^32 - 1` and `writer = 0` the occupancy is `1`, the capacity, and
the test does not fire. -/
theorem fullness_test_wraps :
    (Len emptyAtWrap = 0 ∧ emptyAtWrap.capacity = 2 ∧ putFull emptyAtWrap) ∧
    (Len (oneSlotFilled 4294967295 0 (some 1)) = 1 ∧
      (oneSlotFilled 4294967295 0 (some 1)).capacity = 1 ∧
      ¬ putFull (oneSlotFilled 4294967295 0 (some 1))) := by
  decide

/-- Where nothing wraps (`reader + capacity ≤ 2^32`, `reader ≤ writer < 2^32`,
occupancy at most the capacity, capacity at least `1`) the fullness test of
`Put` fires exactly when the occupancy equals the capacity. -/
theorem putFull_iff_of_no_wrap (r : RingBuffer α) (hc : 1 ≤ r.capacity)
    (hsum : r.reader + r.capacity ≤ 4294967296) (hle : r.reader ≤ r.writer)
    (hwr : r.writer < 4294967296) (hocc : Len r ≤ r.capacity) :
    putFull r ↔ Len r = r.capacity := by
  unfold putFull
  simp only [Len] at *
  omega

/-! ## A buffer without slots -/

/-- C11 fails at `C = 0` (and at every `C > 2^31`): the buffer returned has no
slots and mask `2^32 - 1`, the first `Put` passes the fullness test, claims
cursor value `0` and indexes the empty status slice at `0`, which panics. -/
theorem put_panics_without_slots :
    Put (some 7) (NewRingBuffer 0 : RingBuffer Nat) = none ∧
    Put (some 7) (NewRingBuffer 4294967295 : RingBuffer Nat) = none := by
  decide

theorem Shaped.index_lt {r : RingBuffer α} (h : Shaped r) (c : Nat) :
    c &&& r.mask < r.capacity := by
  obtain ⟨⟨k, hk⟩, hm, -, -⟩ := h
  rw [hm, hk, Nat.and_pow_two_sub_one_eq_mod]
  exact Nat.mod_lt _ (Nat.pow_pos (by norm_num))

theorem shaped_new (C : Nat) (h1 : 1 ≤ C) (h2 : C ≤ 2147483648) :
    Shaped (NewRingBuffer C : RingBuffer α) :=
  have h := holds_new (α := α) C h1 h2
  ⟨h.pow, h.mask_eq, h.clen, h.slen⟩

theorem Shaped.put {r : RingBuffer α} (h : Shaped r) (v : Option α) :
    ∃ b r1, Put v r = some (b, r1) ∧ Shaped r1 := by
  have hi := h.index_lt r.writer
  obtain ⟨hp, hm, hc, hs⟩ := h
  rw [Put_eq_putSeq, putSeq]
  by_cases hf : putFull r
  · exact ⟨false, r, by rw [if_pos hf], hp, hm, hc, hs⟩
  · rw [if_neg hf, List.getElem?_eq_getElem (by omega : r.writer &&& r.mask < r.status.length)]
    by_cases h0 : r.status[r.writer &&& r.mask] = 0
    · refine ⟨true, { r with writer := (r.writer + 1) % 4294967296
                             container := r.container.set (r.writer &&& r.mask) v
                             status := r.status.set (r.writer &&& r.mask) 1 },
        by simp only [h0, if_true, hc, hi], hp, hm, ?_, ?_⟩
      · simpa using hc
      · simpa using hs
    · exact ⟨false, { r with writer := (r.writer + 1) % 4294967296 },
        by simp only [h0, if_false], hp, hm, hc, hs⟩

theorem Shaped.get {r : RingBuffer α} (h : Shaped r) :
    ∃ x r1, Get r = some (x, r1) ∧ Shaped r1 := by
  have hi := h.index_lt r.reader
  obtain ⟨hp, hm, hc, hs⟩ := h
  rw [Get_eq_getSeq, getSeq]
  by_cases he : r.writer = r.reader
  · exact ⟨none, r, by rw [if_pos he], hp, hm, hc, hs⟩
  · rw [if_neg he, List.getElem?_eq_getElem (by omega : r.reader &&& r.mask < r.status.length)]
    by_cases h1 : r.status[r.reader &&& r.mask] = 1
    · rw [List.getElem?_eq_getElem (by omega : r.reader &&& r.mask < r.container.length)]
      refine ⟨r.container[r.reader &&& r.mask],
        { r with reader := (r.reader + 1) % 4294967296
                 status := r.status.set (r.reader &&& r.mask) 0 },
        by simp only [h1, if_true], hp, hm, hc, ?_⟩
      simpa using hs
    · exact ⟨none, { r with reader := (r.reader + 1) % 4294967296 },
        by simp only [h1, if_false], hp, hm, hc, hs⟩

/-- On a buffer of the shape `NewRingBuffer` gives for `1 ≤ C ≤ 2^31`, no
sequence of sequential `Put` and `Get` calls panics. -/
theorem Shaped.run {r : RingBuffer α} (h : Shaped r) (cs : List (Call α)) :
    ∃ t r1, run cs r = some (t, r1) ∧ Shaped r1 := by
  induction cs generalizing r with
  | nil => exact ⟨[], r, rfl, h⟩
  | cons c cs ih =>
    have hcall : ∃ x r1, call c r = some (x, r1) ∧ Shaped r1 := by
      cases c with
      | put v =>
        obtain ⟨b, r1, hp, h1⟩ := h.put v
        exact ⟨Ret.put b, r1, by simp [call, hp], h1⟩
      | get =>
        obtain ⟨x, r1, hg, h1⟩ := h.get
        exact ⟨Ret.get x, r1, by simp [call, hg], h1⟩
    obtain ⟨x, r1, hc, h1⟩ := hcall
    obtain ⟨t, r2, hr, h2⟩ := ih h1
    exact ⟨_, r2, run_cons c cs r r1 r2 x t hc hr, h2⟩

/-! ## Refinement of a bounded queue -/

theorem exists_offset {c n i : Nat} (hi : i < c) : ∃ j, j < c ∧ (n + j) % c = i := by
  have hc : 0 < c := by omega
  have hdm := Nat.div_add_mod n c
  have hlt := Nat.mod_lt n hc
  by_cases h : n % c ≤ i
  · refine ⟨i - n % c, by omega, ?_⟩
    have e : n + (i - n % c) = i + c * (n / c) := by omega
    rw [e, Nat.add_mul_mod_self_left, Nat.mod_eq_of_lt hi]
  · refine ⟨i + c - n % c, by omega, ?_⟩
    have e : n + (i + c - n % c) = i + c + c * (n / c) := by omega
    rw [e, Nat.add_mul_mod_self_left, Nat.add_mod_right, Nat.mod_eq_of_lt hi]

theorem Holds.filled_iff {r : RingBuffer α} {q : List (Option α)} (h : Holds r q)
    (i : Nat) (hi : i < r.capacity) :
    r.status[i]? = some 1 ↔ ∃ c, r.reader ≤ c ∧ c < r.writer ∧ c &&& r.mask = i := by
  have hw := h.wr
  constructor
  · intro hs
    obtain ⟨j, hj, he⟩ := exists_offset (n := r.reader) hi
    by_cases hjq : j < q.length
    · exact ⟨r.reader + j, by omega, by omega, by rw [h.index, he]⟩
    · have := h.empty j (by omega) hj
      rw [he, hs] at this
      simp at this
  · rintro ⟨c, h1, h2, rfl⟩
    have := (h.filled (c - r.reader) (by omega)).1
    rw [h.index]
    have e : r.reader + (c - r.reader) = c := by omega
    rwa [e] at this

theorem get_filled_eq (r : RingBuffer α) (x : Option α) (hne : r.writer ≠ r.reader)
    (hs : r.status[r.reader &&& r.mask]? = some 1)
    (hc : r.container[r.reader &&& r.mask]? = some x) :
    Get r = some (x, { r with reader := (r.reader + 1) % 4294967296
                              status := r.status.set (r.reader &&& r.mask) 0 }) := by
  rw [Get_eq_getSeq, getSeq, if_neg hne, hs]
  simp only [if_true, hc]

theorem Holds.put_count {r r1 : RingBuffer α} {q : List (Option α)} (h : Holds r q)
    (hb : r.writer + r.capacity < 4294967296)
    (v : Option α) (hp : Put v r = some (true, r1)) (hcount : r.status.count 1 = q.length) :
    r1.status.count 1 = q.length + 1 ∧ r1.writer = r.writer + 1 ∧ r1.capacity = r.capacity := by
  obtain ⟨-, hs, -, rfl⟩ := put_true_inv v r r1 hp
  have h1 := h.wr
  have h2 := h.bound
  have h3 := h.cap_pos
  have hil : r.writer &&& r.mask < r.status.length := by
    by_contra hcon
    rw [List.getElem?_eq_none (by omega)] at hs
    simp at hs
  have hv : r.status[r.writer &&& r.mask] = 0 := by
    rw [List.getElem?_eq_getElem hil] at hs
    simpa using hs
  refine ⟨?_, ?_, rfl⟩
  · show (r.status.set (r.writer &&& r.mask) 1).count 1 = q.length + 1
    rw [List.count_set _ _ _ _ hil, hv, hcount]
    simp
  · show (r.writer + 1) % 4294967296 = r.writer + 1
    omega

theorem Holds.refines {r : RingBuffer α} {q : List (Option α)} (h : Holds r q)
    (hcount : r.status.count 1 = q.length) (ops : List (Op α))
    (hb : r.writer + countPuts ops + r.capacity ≤ 4294967296) :
    ∃ r1, runOps ops r = some ((queueRun r.capacity ops q).1, r1) ∧
      Holds r1 (queueRun r.capacity ops q).2 ∧
      r1.status.count 1 = (queueRun r.capacity ops q).2.length ∧
      r1.capacity = r.capacity := by
  induction ops generalizing r q with
  | nil => exact ⟨r, rfl, h, hcount, rfl⟩
  | cons c ops ih =>
    have hstep : ∃ r1, perform c r = some ((queueStep r.capacity c q).1, r1) ∧
        Holds r1 (queueStep r.capacity c q).2 ∧
        r1.status.count 1 = (queueStep r.capacity c q).2.length ∧
        r1.capacity = r.capacity ∧
        r1.writer + countPuts ops + r1.capacity ≤ 4294967296 := by
      cases c with
      | put v =>
        simp only [countPuts] at hb
        by_cases hq : q.length < r.capacity
        · obtain ⟨r1, hp, h1⟩ := h.put_ok hq (by omega) v
          obtain ⟨hc1, hw1, hcap1⟩ := h.put_count (by omega) v hp hcount
          refine ⟨r1, ?_, ?_, ?_, hcap1, by omega⟩
          · simp [perform, hp, queueStep, hq]
          · simpa [queueStep, hq] using h1
          · simpa [queueStep, hq] using hc1
        · have hfull : q.length = r.capacity := le_antisymm h.le_cap (by omega)
          refine ⟨r, ?_, ?_, ?_, rfl, by omega⟩
          · simp [perform, h.put_full hfull v, queueStep, hq]
          · simpa [queueStep, hq] using h
          · simpa [queueStep, hq] using hcount
      | get =>
        simp only [countPuts] at hb
        cases q with
        | nil =>
          have he : r.writer = r.reader := by simpa using h.wr
          refine ⟨r, ?_, h, hcount, rfl, hb⟩
          simp [perform, Get_eq_getSeq, getSeq, he, queueStep]
        | cons x q =>
          obtain ⟨r1, hg, h1⟩ := h.get_ok
          have hw := h.wr
          simp only [List.length_cons] at hw hcount
          obtain ⟨hs, hc⟩ := h.filled 0 (by simp)
          simp only [Nat.add_zero, List.getElem?_cons_zero, ← h.index] at hs hc
          have hg2 := get_filled_eq r x (by omega) hs hc
          rw [hg] at hg2
          simp only [Option.some.injEq, Prod.mk.injEq, true_and] at hg2
          have hil : r.reader &&& r.mask < r.status.length := by
            by_contra hcon
            rw [List.getElem?_eq_none (by omega)] at hs
            simp at hs
          have hv : r.status[r.reader &&& r.mask] = 1 := by
            rw [List.getElem?_eq_getElem hil] at hs
            simpa using hs
          refine ⟨r1, ?_, h1, ?_, by rw [hg2], by rw [hg2]; exact hb⟩
          · simp [perform, hg, queueStep]
          · rw [hg2]
            show (r.status.set (r.reader &&& r.mask) 0).count 1 = q.length
            rw [List.count_set _ _ _ _ hil, hv, hcount]
            simp
      | len =>
        simp only [countPuts] at hb
        exact ⟨r, by simp [perform, h.len_eq, queueStep], h, hcount, rfl, hb⟩
    obtain ⟨r1, hp, h1, hc1, hcap1, hb1⟩ := hstep
    obtain ⟨r2, hr, h2, hc2, hcap2⟩ := ih h1 hc1 hb1
    rw [hcap1] at hr h2 hc2
    refine ⟨r2, ?_, h2, hc2, by omega⟩
    simp only [runOps, hp, hr, queueRun]

/-- C14: for `1 ≤ C ≤ 2^31` and every sequence of `Put`/`Get`/`Len` calls
with fewer than `2^32 - capacity` calls of `Put`, the calls run on
`NewRingBuffer C` return exactly what the ideal bounded queue of that capacity
returns, `Len()` of the state reached is the length of the queue, the slots in
state FILLED (1) are exactly those at `c &&& mask` for the cursor values
`reader ≤ c < writer`, and their number is `Len()`. -/
theorem refines_queue (α : Type) (C : Nat) (h1 : 1 ≤ C) (h2 : C ≤ 2147483648)
    (ops : List (Op α))
    (hb : countPuts ops < 4294967296 - (NewRingBuffer C : RingBuffer α).capacity) :
    ∃ r, runOps ops (NewRingBuffer C : RingBuffer α)
        = some ((queueRun (NewRingBuffer C : RingBuffer α).capacity ops []).1, r) ∧
      Len r = (queueRun (NewRingBuffer C : RingBuffer α).capacity ops []).2.length ∧
      (∀ i, i < r.capacity →
        (r.status[i]? = some 1 ↔ ∃ c, r.reader ≤ c ∧ c < r.writer ∧ c &&& r.mask = i)) ∧
      r.status.count 1 = Len r := by
  have h0 : Holds (NewRingBuffer C : RingBuffer α) [] := holds_new C h1 h2
  have hcount : (NewRingBuffer C : RingBuffer α).status.count 1 = ([] : List (Option α)).length := by
    show (List.replicate (roundUp C) 0).count 1 = 0
    simp [List.count_replicate]
  have hw : (NewRingBuffer C : RingBuffer α).writer = 0 := rfl
  obtain ⟨r, hr, hh, hc, -⟩ := h0.refines hcount ops (by rw [hw]; omega)
  exact ⟨r, hr, hh.len_eq, fun i hi => hh.filled_iff i hi, by rw [hc, hh.len_eq]⟩

theorem refines_queue_witness :
    ∃ r, runOps [Op.put (some 1), Op.put (some 2), Op.len, Op.get, Op.put (some 3),
          Op.put (some 4), Op.put (some 5), Op.put (some 6), Op.len, Op.get, Op.get, Op.get,
          Op.get, Op.get, Op.len] (NewRingBuffer 3 : RingBuffer Nat)
        = some ((queueRun (NewRingBuffer 3 : RingBuffer Nat).capacity
            [Op.put (some 1), Op.put (some 2), Op.len, Op.get, Op.put (some 3),
              Op.put (some 4), Op.put (some 5), Op.put (some 6), Op.len, Op.get, Op.get,
              Op.get, Op.get, Op.get, Op.len] []).1, r) ∧
      Len r = (queueRun (NewRingBuffer 3 : RingBuffer Nat).capacity
            [Op.put (some 1), Op.put (some 2), Op.len, Op.get, Op.put (some 3),
              Op.put (some 4), Op.put (some 5), Op.put (some 6), Op.len, Op.get, Op.get,
              Op.get, Op.get, Op.get, Op.len] []).2.length ∧
      (∀ i, i < r.capacity →
        (r.status[i]? = some 1 ↔ ∃ c, r.reader ≤ c ∧ c < r.writer ∧ c &&& r.mask = i)) ∧
      r.status.count 1 = Len r :=
  refines_queue Nat 3 (by decide) (by decide) _ (by decide)

/-! ## Calls as sequences of atomic steps -/

theorem step_ok (m : RingBuffer α) (t : Thread α) (h : t.Ok) : (step m t).2.Ok := by
  obtain ⟨arg, pc, o, p, oy, iy⟩ := t
  cases pc <;> simp only [step] <;> (repeat' split) <;> simp_all [Thread.Ok] <;> omega

theorem step_fuel (m : RingBuffer α) (t : Thread α) (h : t.Ok) (hf : t.finished = false) :
    (step m t).2.pc.fuel < t.pc.fuel := by
  obtain ⟨arg, pc, o, p, oy, iy⟩ := t
  cases pc <;> simp only [step] <;> (repeat' split) <;>
    simp_all [Thread.Ok, Pc.fuel, Thread.finished] <;> omega

theorem step_finished (m : RingBuffer α) (t : Thread α) (hf : t.finished = true) :
    (step m t).2 = t := by
  obtain ⟨arg, pc, o, p, oy, iy⟩ := t
  cases pc <;> simp_all [step, Thread.finished]

theorem runEnv_ok (env : Nat → RingBuffer α) (t : Thread α) (h : t.Ok) (n : Nat) :
    (runEnv env n t).Ok := by
  induction n with
  | zero => exact h
  | succ n ih => exact step_ok _ _ ih

theorem runEnv_fuel (env : Nat → RingBuffer α) (t : Thread α) (h : t.Ok) (n : Nat) :
    (runEnv env n t).finished = true ∨ (runEnv env n t).pc.fuel + n ≤ t.pc.fuel := by
  induction n with
  | zero => exact Or.inr (le_refl _)
  | succ n ih =>
    show (step (env n) (runEnv env n t)).2.finished = true ∨
      (step (env n) (runEnv env n t)).2.pc.fuel + (n + 1) ≤ t.pc.fuel
    rcases ih with hfin | hle
    · rw [step_finished _ _ hfin]; exact Or.inl hfin
    · cases hf : (runEnv env n t).finished with
      | true => rw [step_finished _ _ hf]; exact Or.inl hf
      | false =>
        have := step_fuel (env n) _ (runEnv_ok env t h n) hf
        exact Or.inr (by omega)

theorem runEnv_finished (env : Nat → RingBuffer α) (t : Thread α) (h : t.Ok) (n : Nat)
    (hn : t.pc.fuel ≤ n) : (runEnv env n t).finished = true := by
  rcases runEnv_fuel env t h n with hfin | hle
  · exact hfin
  · have h0 : (runEnv env n t).pc.fuel = 0 := by omega
    have hok := runEnv_ok env t h n
    revert h0 hok
    generalize runEnv env n t = u
    obtain ⟨arg, pc, o, p, oy, iy⟩ := u
    cases pc <;> simp [Pc.fuel, Thread.finished]

theorem step_safePut (m : RingBuffer α) (hm : Shaped m) (t : Thread α)
    (h : t.SafePut m.capacity) : (step m t).2.SafePut m.capacity := by
  have hi := hm.index_lt
  obtain ⟨-, -, hc, hs⟩ := hm
  obtain ⟨arg, pc, o, p, oy, iy⟩ := t
  cases pc <;> simp only [step] <;> (repeat' split) <;>
    simp_all [Thread.SafePut]

theorem step_safeGet (m : RingBuffer α) (hm : Shaped m) (t : Thread α)
    (h : t.SafeGet m.capacity) : (step m t).2.SafeGet m.capacity := by
  have hi := hm.index_lt
  obtain ⟨-, -, hc, hs⟩ := hm
  obtain ⟨arg, pc, o, p, oy, iy⟩ := t
  cases pc <;> simp only [step] <;> (repeat' split) <;>
    simp_all [Thread.SafeGet]

theorem runEnv_safePut (env : Nat → RingBuffer α)
    (henv : ∀ k, Shaped (env k) ∧ (env k).capacity = (env 0).capacity)
    (t : Thread α) (h : t.SafePut (env 0).capacity) (n : Nat) :
    (runEnv env n t).SafePut (env 0).capacity := by
  induction n with
  | zero => exact h
  | succ n ih =>
    have := step_safePut (env n) (henv n).1 (runEnv env n t) (by rw [(henv n).2]; exact ih)
    rw [(henv n).2] at this
    exact this

theorem runEnv_safeGet (env : Nat → RingBuffer α)
    (henv : ∀ k, Shaped (env k) ∧ (env k).capacity = (env 0).capacity)
    (t : Thread α) (h : t.SafeGet (env 0).capacity) (n : Nat) :
    (runEnv env n t).SafeGet (env 0).capacity := by
  induction n with
  | zero => exact h
  | succ n ih =>
    have := step_safeGet (env n) (henv n).1 (runEnv env n t) (by rw [(henv n).2]; exact ih)
    rw [(henv n).2] at this
    exact this

theorem finished_safePut (cap : Nat) (t : Thread α) (hf : t.finished = true)
    (hs : t.SafePut cap) : ∃ ok, t.pc = Pc.putDone ok := by
  obtain ⟨arg, pc, o, p, oy, iy⟩ := t
  cases pc <;> simp_all [Thread.finished, Thread.SafePut]

theorem finished_safeGet (cap : Nat) (t : Thread α) (hf : t.finished = true)
    (hs : t.SafeGet cap) : ∃ val, t.pc = Pc.getDone val := by
  obtain ⟨arg, pc, o, p, oy, iy⟩ := t
  cases pc <;> simp_all [Thread.finished, Thread.SafeGet]

theorem ok_bounds (t : Thread α) (h : t.Ok) (hf : t.finished = true) :
    t.outer ≤ 10 ∧ t.polls ≤ 10 ∧ t.outerYields + t.innerYields ≤ 20 ∧
    (∀ ok, t.pc = Pc.putDone ok → t.outerYields = 10 ∨ t.innerYields = 10 → ok = false) ∧
    (∀ val, t.pc = Pc.getDone val → t.outerYields = 10 ∨ t.innerYields = 10 → val = none) := by
  obtain ⟨arg, pc, o, p, oy, iy⟩ := t
  cases pc <;> simp_all [Thread.finished, Thread.Ok] <;> omega

/-- C18: against an arbitrary environment, a call of `Put` and a call of `Get`
have returned or panicked after at most 43 atomic steps, having begun at most 10
iterations of the outer loop, polled the slot state at most 10 times and
yielded at most 20 times; `Put` has returned false and `Get` nil if the outer
loop yielded 10 times or the inner loop yielded 10 times; and if the environment
keeps the buffer in the shape `NewRingBuffer` gave it, both calls have
returned. -/
theorem bounded_retries (env : Nat → RingBuffer α) (v : Option α) (n : Nat) (hn : 43 ≤ n) :
    ((runEnv env n (Thread.put v)).finished = true ∧
      (runEnv env n (Thread.put v)).outer ≤ 10 ∧
      (runEnv env n (Thread.put v)).polls ≤ 10 ∧
      (runEnv env n (Thread.put v)).outerYields
        + (runEnv env n (Thread.put v)).innerYields ≤ 20 ∧
      ∀ ok, (runEnv env n (Thread.put v)).pc = Pc.putDone ok →
        (runEnv env n (Thread.put v)).outerYields = 10 ∨
          (runEnv env n (Thread.put v)).innerYields = 10 → ok = false) ∧
    ((runEnv env n (Thread.get : Thread α)).finished = true ∧
      (runEnv env n (Thread.get : Thread α)).outer ≤ 10 ∧
      (runEnv env n (Thread.get : Thread α)).polls ≤ 10 ∧
      (runEnv env n (Thread.get : Thread α)).outerYields
        + (runEnv env n (Thread.get : Thread α)).innerYields ≤ 20 ∧
      ∀ val, (runEnv env n (Thread.get : Thread α)).pc = Pc.getDone val →
        (runEnv env n (Thread.get : Thread α)).outerYields = 10 ∨
          (runEnv env n (Thread.get : Thread α)).innerYields = 10 → val = none) ∧
    ((∀ k, Shaped (env k) ∧ (env k).capacity = (env 0).capacity) →
      (∃ ok, (runEnv env n (Thread.put v)).pc = Pc.putDone ok) ∧
      ∃ val, (runEnv env n (Thread.get : Thread α)).pc = Pc.getDone val) := by
  have hp0 : (Thread.put v).Ok := by simp [Thread.Ok, Thread.put]
  have hg0 : (Thread.get : Thread α).Ok := by simp [Thread.Ok, Thread.get]
  have hpf := runEnv_finished env (Thread.put v) hp0 n (by simpa [Thread.put, Pc.fuel] using hn)
  have hgf := runEnv_finished env (Thread.get : Thread α) hg0 n
    (by simpa [Thread.get, Pc.fuel] using hn)
  obtain ⟨p1, p2, p3, p4, -⟩ := ok_bounds _ (runEnv_ok env _ hp0 n) hpf
  obtain ⟨g1, g2, g3, -, g5⟩ := ok_bounds _ (runEnv_ok env _ hg0 n) hgf
  refine ⟨⟨hpf, p1, p2, p3, p4⟩, ⟨hgf, g1, g2, g3, g5⟩, fun henv => ⟨?_, ?_⟩⟩
  · exact finished_safePut _ _ hpf
      (runEnv_safePut env henv _ (by simp [Thread.SafePut, Thread.put]) n)
  · exact finished_safeGet _ _ hgf
      (runEnv_safeGet env henv _ (by simp [Thread.SafeGet, Thread.get]) n)

theorem bounded_retries_witness :
    ((runEnv filledEnv 43 (Thread.put (some 7))).finished = true ∧
      (runEnv filledEnv 43 (Thread.put (some 7))).outer ≤ 10 ∧
      (runEnv filledEnv 43 (Thread.put (some 7))).polls ≤ 10 ∧
      (runEnv filledEnv 43 (Thread.put (some 7))).outerYields
        + (runEnv filledEnv 43 (Thread.put (some 7))).innerYields ≤ 20 ∧
      ∀ ok, (runEnv filledEnv 43 (Thread.put (some 7))).pc = Pc.putDone ok →
        (runEnv filledEnv 43 (Thread.put (some 7))).outerYields = 10 ∨
          (runEnv filledEnv 43 (Thread.put (some 7))).innerYields = 10 → ok = false) ∧
    ((runEnv filledEnv 43 (Thread.get : Thread Nat)).finished = true ∧
      (runEnv filledEnv 43 (Thread.get : Thread Nat)).outer ≤ 10 ∧
      (runEnv filledEnv 43 (Thread.get : Thread Nat)).polls ≤ 10 ∧
      (runEnv filledEnv 43 (Thread.get : Thread Nat)).outerYields
        + (runEnv filledEnv 43 (Thread.get : Thread Nat)).innerYields ≤ 20 ∧
      ∀ val, (runEnv filledEnv 43 (Thread.get : Thread Nat)).pc = Pc.getDone val →
        (runEnv filledEnv 43 (Thread.get : Thread Nat)).outerYields = 10 ∨
          (runEnv filledEnv 43 (Thread.get : Thread Nat)).innerYields = 10 → val = none) ∧
    ((∀ k, Shaped (filledEnv k) ∧ (filledEnv k).capacity = (filledEnv 0).capacity) →
      (∃ ok, (runEnv filledEnv 43 (Thread.put (some 7))).pc = Pc.putDone ok) ∧
      ∃ val, (runEnv filledEnv 43 (Thread.get : Thread Nat)).pc = Pc.getDone val) :=
  bounded_retries filledEnv (some 7) 43 (by decide)

/-- A call of `Put` that takes its atomic steps alone has, after 43 steps,
produced exactly what the sequential `Put` produces: the same result, the same
buffer, or the same panic. -/
theorem put_solo (v : Option α) (r : RingBuffer α) :
    putResult (runSolo 43 (r, Thread.put v)) = some (Put v r) := by
  rw [Put_eq_putSeq, putSeq]
  by_cases hf : putFull r
  · rw [if_pos hf]
    unfold putFull at hf
    simp [runSolo, step, Thread.put, hf, putResult]
  · rw [if_neg hf]
    unfold putFull at hf
    cases hs : r.status[r.writer &&& r.mask]? with
    | none => simp [runSolo, step, Thread.put, hf, putResult, compareAndSwap_self, hs]
    | some s =>
      by_cases h0 : s = 0
      · subst h0
        by_cases hc : r.writer &&& r.mask < r.container.length
        · simp [runSolo, step, Thread.put, hf, putResult, compareAndSwap_self, hs, hc,
            casStatus_hit _ _ _ _ hs]
        · simp [runSolo, step, Thread.put, hf, putResult, compareAndSwap_self, hs, hc]
      · simp [runSolo, step, Thread.put, hf, putResult, compareAndSwap_self, hs, h0]

/-- A call of `Get` that takes its atomic steps alone has, after 43 steps,
produced exactly what the sequential `Get` produces. -/
theorem get_solo (r : RingBuffer α) :
    getResult (runSolo 43 (r, (Thread.get : Thread α))) = some (Get r) := by
  rw [Get_eq_getSeq, getSeq]
  by_cases he : r.writer = r.reader
  · rw [if_pos he]
    simp [runSolo, step, Thread.get, he, getResult]
  · rw [if_neg he]
    cases hs : r.status[r.reader &&& r.mask]? with
    | none => simp [runSolo, step, Thread.get, he, getResult, compareAndSwap_self, hs]
    | some s =>
      by_cases h1 : s = 1
      · subst h1
        cases hc : r.container[r.reader &&& r.mask]? with
        | none => simp [runSolo, step, Thread.get, he, getResult, compareAndSwap_self, hs, hc]
        | some val =>
          simp [runSolo, step, Thread.get, he, getResult, compareAndSwap_self, hs, hc,
            casStatus_hit _ _ _ _ hs]
      · simp [runSolo, step, Thread.get, he, getResult, compareAndSwap_self, hs, h1]

set_option maxRecDepth 100000 in
/-- C12 fails on a buffer of capacity `1` with two producers and two consumers:
in the interleaving `raceSchedule` both calls of `Put` return true (items `1`
and `2`) and both calls of `Get` return item `1`.  The first `Get` has read the
slot but not yet cleared its state when the second `Get`, holding the next
cursor value, which maps to the same slot, finds the state still FILLED and reads
the same reference. -/
theorem duplicate_delivery :
    (exec raceSchedule raceStart).pcs
      = [Pc.putDone true, Pc.getDone (some 1), Pc.putDone true, Pc.getDone (some 1)] := by
  decide

end Phpfpm
